import Mathlib

/-!
Verification of the Pacifica TypeScript SDK's request-authentication and
transport layer, as a shallow embedding in Lean 4.

Embedded source functions (from `src/utils/signer.ts`, `src/clients/SignClient.ts`,
`src/clients/BaseClient.ts`, `src/clients/ApiClient.ts`):

* `sortJsonKeys`, `createCompactJson` — canonicalization;
* `generateKeypair` — multi-encoding private-key resolution (hex / base58 / base64);
* `signMessage`, `verifySignature`, `createSignatureHeader`, `buildSignedRequest`,
  `SignClient.makeSignedRequest` — the signing pipeline;
* `BaseClient.get`/`post` retry loop with `isRetryableError`;
* `WebSocketClient` subscription set and event dispatch.

JavaScript strings are modelled as Lean `String` (compared by code points, which
agrees with JS code-unit comparison on the BMP keys used by the SDK), JS numbers
occurring in the protocol (timestamps, expiry windows) as `Int`, byte buffers as
`List Nat` with entries `< 256`.  The Ed25519 primitives (`ed25519.getPublicKey`,
`ed25519.sign`, `ed25519.verify`) are opaque to the SDK's logic and are modelled
as explicit function parameters, so every theorem quantifies over them.
-/

namespace Pacifica

/-! ### JavaScript string comparison

`Array.prototype.sort()` with no comparator compares strings by UTF-16 code
units.  We model a JS string by its list of characters and compare
lexicographically by code point. -/

/-- Lexicographic strict order on character lists, by code point (the JS
default string comparison used by `Object.keys(obj).sort()`). -/
def ltChars : List Char → List Char → Bool
  | [], [] => false
  | [], _ :: _ => true
  | _ :: _, [] => false
  | a :: as, b :: bs =>
    if a.toNat < b.toNat then true
    else if b.toNat < a.toNat then false
    else ltChars as bs

theorem ltChars_irrefl : ∀ cs, ltChars cs cs = false := by
  intro cs
  induction cs with
  | nil => rfl
  | cons a as ih => simp [ltChars, ih]

theorem ltChars_asymm : ∀ as bs, ltChars as bs = true → ltChars bs as = false := by
  intro as
  induction as with
  | nil =>
    intro bs h
    cases bs with
    | nil => simp [ltChars] at h
    | cons b bs => rfl
  | cons a as ih =>
    intro bs h
    cases bs with
    | nil => simp [ltChars] at h
    | cons b bs =>
      simp only [ltChars] at h ⊢
      rcases Nat.lt_trichotomy a.toNat b.toNat with hlt | heq | hgt
      · rw [if_neg (by omega), if_pos hlt]
      · rw [if_neg (by omega), if_neg (by omega)] at h ⊢
        exact ih bs h
      · rw [if_pos hgt, if_neg (by omega)] at h
        simp at h

theorem ltChars_connex : ∀ as bs, ltChars as bs = false → ltChars bs as = false → as = bs := by
  intro as
  induction as with
  | nil =>
    intro bs h _
    cases bs with
    | nil => rfl
    | cons b bs => simp [ltChars] at h
  | cons a as ih =>
    intro bs h h2
    cases bs with
    | nil => simp [ltChars] at h2
    | cons b bs =>
      simp only [ltChars] at h h2
      rcases Nat.lt_trichotomy a.toNat b.toNat with hlt | heq | hgt
      · rw [if_pos hlt] at h; simp at h
      · have hab : a = b := Char.eq_of_val_eq (UInt32.toNat.inj heq)
        rw [if_neg (by omega), if_neg (by omega)] at h
        rw [if_neg (by omega), if_neg (by omega)] at h2
        rw [hab, ih bs h h2]
      · rw [if_pos hgt] at h2; simp at h2

theorem ltChars_trans : ∀ as bs cs, ltChars as bs = true → ltChars bs cs = true →
    ltChars as cs = true := by
  intro as
  induction as with
  | nil =>
    intro bs cs h h2
    cases bs with
    | nil => simp [ltChars] at h
    | cons b bs =>
      cases cs with
      | nil => simp [ltChars] at h2
      | cons c cs => rfl
  | cons a as ih =>
    intro bs cs h h2
    cases bs with
    | nil => simp [ltChars] at h
    | cons b bs =>
      cases cs with
      | nil => simp [ltChars] at h2
      | cons c cs =>
        simp only [ltChars] at h h2 ⊢
        rcases Nat.lt_trichotomy a.toNat b.toNat with hab | hab | hab <;>
          rcases Nat.lt_trichotomy b.toNat c.toNat with hbc | hbc | hbc
        · rw [if_pos (by omega)]
        · rw [if_pos (by omega)]
        · rw [if_neg (by omega), if_pos (by omega)] at h2; simp at h2
        · rw [if_pos (by omega)]
        · rw [if_neg (by omega), if_neg (by omega)] at h h2 ⊢
          exact ih bs cs h h2
        · rw [if_neg (by omega), if_pos (by omega)] at h2; simp at h2
        · rw [if_neg (by omega), if_pos (by omega)] at h; simp at h
        · rw [if_neg (by omega), if_pos (by omega)] at h; simp at h
        · rw [if_neg (by omega), if_pos (by omega)] at h; simp at h

/-! ### JSON value model -/

/-- JSON-like values produced by SDK callers: the plain-data payloads that
`sortJsonKeys` / `createCompactJson` (src/utils/signer.ts) operate on.
Objects carry their fields in insertion order, as JS objects do. -/
inductive Json where
  | null : Json
  | bool (b : Bool) : Json
  | num (n : Int) : Json
  | str (s : String) : Json
  | arr (elems : List Json) : Json
  | obj (fields : List (String × Json)) : Json

/-- Key comparison used when sorting an object's fields: `a ≤ b` in the JS
default string order (negation of strict `ltChars`). -/
def keyLE (a b : String × Json) : Prop := ltChars b.1.data a.1.data = false

/-- Strict key order: `a`'s key is strictly below `b`'s. -/
def keyLT (a b : String × Json) : Prop := ltChars a.1.data b.1.data = true

instance : DecidableRel keyLE := fun _ b =>
  inferInstanceAs (Decidable (ltChars b.1.data _ = false))

instance : DecidableRel keyLT := fun a _ =>
  inferInstanceAs (Decidable (ltChars a.1.data _ = true))

instance : IsTotal (String × Json) keyLE := by
  constructor
  intro a b
  unfold keyLE
  cases h : ltChars b.1.data a.1.data with
  | false => exact Or.inl rfl
  | true => exact Or.inr (ltChars_asymm _ _ h)

instance : IsTrans (String × Json) keyLE := by
  constructor
  intro a b c hab hbc
  unfold keyLE at *
  by_contra hac
  have hac' : ltChars c.1.data a.1.data = true := by
    cases h : ltChars c.1.data a.1.data with
    | false => exact absurd h hac
    | true => rfl
  cases hab2 : ltChars a.1.data b.1.data with
  | true =>
    have hcb := ltChars_trans _ _ _ hac' hab2
    rw [hbc] at hcb
    simp at hcb
  | false =>
    have heq : a.1.data = b.1.data := ltChars_connex _ _ hab2 hab
    rw [← heq, hac'] at hbc
    simp at hbc

instance : IsAntisymm (String × Json) keyLT := by
  constructor
  intro a b hab hba
  have := ltChars_asymm _ _ hab
  rw [hba] at this
  simp at this

/-! ### sortJsonKeys (src/utils/signer.ts, lines 301–318)

The source sorts the object's keys with `Object.keys(obj).sort()` and then
recursively sorts each value; arrays are mapped elementwise; scalars are
returned unchanged.  Sorting the pairs by key and then recursing into the
values is the same operation (the comparison looks only at keys, and both
JS `sort` on distinct keys and `insertionSort` are stable); we recurse first
so that the recursion is structural. -/

mutual
/-- Model of `sortJsonKeys`: recursively sort every object's fields into
ascending key order (JS default string order); arrays keep their element
order; scalars are unchanged. -/
def sortJsonKeys : Json → Json
  | .null => .null
  | .bool b => .bool b
  | .num n => .num n
  | .str s => .str s
  | .arr xs => .arr (sortJsonList xs)
  | .obj fs => .obj (List.insertionSort keyLE (sortJsonFields fs))
termination_by structural j => j

/-- Elementwise `sortJsonKeys` over an array's elements. -/
def sortJsonList : List Json → List Json
  | [] => []
  | x :: xs => sortJsonKeys x :: sortJsonList xs
termination_by structural xs => xs

/-- Valuewise `sortJsonKeys` over an object's fields. -/
def sortJsonFields : List (String × Json) → List (String × Json)
  | [] => []
  | (k, v) :: fs => (k, sortJsonKeys v) :: sortJsonFields fs
termination_by structural fs => fs
end

theorem sortJsonList_eq_map : ∀ xs, sortJsonList xs = xs.map sortJsonKeys := by
  intro xs
  induction xs with
  | nil => rfl
  | cons x xs ih => simp [sortJsonList, ih]

theorem sortJsonFields_eq_map : ∀ fs,
    sortJsonFields fs = fs.map (fun p => (p.1, sortJsonKeys p.2)) := by
  intro fs
  induction fs with
  | nil => rfl
  | cons p fs ih => cases p; simp [sortJsonFields, ih]

/-- Size-based induction principle for the nested `Json` type. -/
theorem Json.mutualInd (motive : Json → Prop)
    (hnull : motive .null)
    (hbool : ∀ b, motive (.bool b))
    (hnum : ∀ n, motive (.num n))
    (hstr : ∀ s, motive (.str s))
    (harr : ∀ xs, (∀ x ∈ xs, motive x) → motive (.arr xs))
    (hobj : ∀ fs, (∀ p ∈ fs, motive p.2) → motive (.obj fs)) : ∀ j, motive j := by
  have key : ∀ n j, sizeOf j ≤ n → motive j := by
    intro n
    induction n with
    | zero =>
      intro j hj
      exfalso
      cases j <;> simp at hj
    | succ n ih =>
      intro j hj
      cases j with
      | null => exact hnull
      | bool b => exact hbool b
      | num m => exact hnum m
      | str s => exact hstr s
      | arr xs =>
        refine harr xs (fun x hx => ih x ?_)
        have h1 : sizeOf x < sizeOf xs := List.sizeOf_lt_of_mem hx
        have h2 : sizeOf (Json.arr xs) = 1 + sizeOf xs := by simp
        omega
      | obj fs =>
        refine hobj fs (fun p hp => ih p.2 ?_)
        have h1 : sizeOf p < sizeOf fs := List.sizeOf_lt_of_mem hp
        have h2 : sizeOf (Json.obj fs) = 1 + sizeOf fs := by simp
        have h3 : sizeOf p.2 < sizeOf p := by
          obtain ⟨x, y⟩ := p
          simp only [Prod.mk.sizeOf_spec]
          omega
        omega
  exact fun j => key (sizeOf j) j (Nat.le_refl _)

/-! ### JSON.stringify (compact form)

`createCompactJson` (src/utils/signer.ts, lines 323–325) is
`JSON.stringify(sortJsonKeys(obj))`: no separators beyond `,` and `:`, no
whitespace, strings quoted with the standard JSON escapes, integers in
decimal. -/

/-- Decimal digit character. -/
def digitChar (n : Nat) : Char := Char.ofNat (48 + n)

/-- Lowercase hexadecimal digit character (as emitted by `JSON.stringify`
in `\u00XX` escapes). -/
def hexDigitChar (n : Nat) : Char :=
  if n < 10 then Char.ofNat (48 + n) else Char.ofNat (87 + n)

/-- Decimal rendering of a natural number, most significant digit first
(accumulator form; `fuel` bounds the number of divisions). -/
def natToCharsAux : Nat → Nat → List Char → List Char
  | 0, _, acc => acc
  | fuel + 1, n, acc =>
    if n = 0 then acc else natToCharsAux fuel (n / 10) (digitChar (n % 10) :: acc)

/-- Decimal rendering of a natural number (`String(n)` in JS). -/
def natToChars (n : Nat) : List Char := if n = 0 then ['0'] else natToCharsAux n n []

/-- Decimal rendering of an integer (`JSON.stringify` of a JS integer). -/
def intToChars (i : Int) : List Char :=
  if i < 0 then '-' :: natToChars i.natAbs else natToChars i.natAbs

/-- JSON string escape of one character, as `JSON.stringify` produces it:
`"` and `\` are backslash-escaped, the control shortcuts `\b \t \n \f \r`
are used when applicable, all other control characters become `\u00XX`,
and everything else is emitted raw. -/
def escapeChar (c : Char) : List Char :=
  if c = '"' then ['\\', '"']
  else if c = '\\' then ['\\', '\\']
  else if c = '\x08' then ['\\', 'b']
  else if c = '\x09' then ['\\', 't']
  else if c = '\x0a' then ['\\', 'n']
  else if c = '\x0c' then ['\\', 'f']
  else if c = '\x0d' then ['\\', 'r']
  else if c.toNat < 32 then
    ['\\', 'u', '0', '0', hexDigitChar (c.toNat / 16), hexDigitChar (c.toNat % 16)]
  else [c]

/-- JSON string escape of a character sequence. -/
def escapeChars : List Char → List Char
  | [] => []
  | c :: cs => escapeChar c ++ escapeChars cs

/-- Quoted JSON string literal for a character sequence. -/
def quoteChars (cs : List Char) : List Char := '"' :: (escapeChars cs ++ ['"'])

mutual
/-- Model of compact `JSON.stringify`: object fields are emitted in their
stored order (`createCompactJson` sorts them first), arrays in element
order, with no whitespace anywhere. -/
def stringifyJson : Json → List Char
  | .null => ['n', 'u', 'l', 'l']
  | .bool true => 't' :: "rue".data
  | .bool false => 'f' :: "alse".data
  | .num i => intToChars i
  | .str s => quoteChars s.data
  | .arr [] => ['[', ']']
  | .arr (x :: xs) => '[' :: (stringifyJson x ++ stringifyElemsRest xs ++ [']'])
  | .obj [] => ['\x7b', '\x7d']
  | .obj ((k, v) :: fs) =>
    '\x7b' :: (quoteChars k.data ++ ':' :: stringifyJson v ++ stringifyFieldsRest fs ++ ['\x7d'])
termination_by structural j => j

/-- Comma-separated continuation of an array's elements. -/
def stringifyElemsRest : List Json → List Char
  | [] => []
  | x :: xs => ',' :: (stringifyJson x ++ stringifyElemsRest xs)
termination_by structural xs => xs

/-- Comma-separated continuation of an object's fields. -/
def stringifyFieldsRest : List (String × Json) → List Char
  | [] => []
  | (k, v) :: fs => ',' :: (quoteChars k.data ++ ':' :: stringifyJson v ++ stringifyFieldsRest fs)
termination_by structural fs => fs
end

/-- Model of `createCompactJson` (src/utils/signer.ts):
`JSON.stringify(sortJsonKeys(obj))`. -/
def createCompactJson (j : Json) : String := ⟨stringifyJson (sortJsonKeys j)⟩

/-! ### JSON parser

A parser for the compact JSON grammar emitted above, used to state the
idempotence property: parsing an already-canonical string and
re-canonicalizing yields the same string.  `fuel` bounds the nesting
recursion; `jsize` below computes a sufficient fuel for any value. -/

/-- Decimal digit test. -/
def isDigitChar (c : Char) : Bool := 48 ≤ c.toNat && c.toNat ≤ 57

/-- Value of a decimal digit character. -/
def digitVal (c : Char) : Nat := c.toNat - 48

/-- Value of a hexadecimal digit character (either case), if it is one. -/
def hexVal? (c : Char) : Option Nat :=
  if 48 ≤ c.toNat ∧ c.toNat ≤ 57 then some (c.toNat - 48)
  else if 97 ≤ c.toNat ∧ c.toNat ≤ 102 then some (c.toNat - 87)
  else if 65 ≤ c.toNat ∧ c.toNat ≤ 70 then some (c.toNat - 55)
  else none

/-- Numeric value of a string of decimal digits. -/
def digitsToNat (ds : List Char) : Nat := ds.foldl (fun a c => a * 10 + digitVal c) 0

/-- Inverse of the single-character shortcut escapes. -/
def unescapeChar (e : Char) : Option Char :=
  if e = '"' then some '"'
  else if e = '\\' then some '\\'
  else if e = '/' then some '/'
  else if e = 'b' then some '\x08'
  else if e = 't' then some '\x09'
  else if e = 'n' then some '\x0a'
  else if e = 'f' then some '\x0c'
  else if e = 'r' then some '\x0d'
  else none

/-- Parser for the body of a JSON string literal (everything after the
opening quote), returning the unescaped characters and the input after the
closing quote. -/
def parseStrBody : List Char → Option (List Char × List Char)
  | [] => none
  | c :: rest =>
    if c = '"' then some ([], rest)
    else if c = '\\' then
      match rest with
      | [] => none
      | e :: rest2 =>
        if e = 'u' then
          match rest2 with
          | h1 :: h2 :: h3 :: h4 :: rest3 => do
            let v1 ← hexVal? h1
            let v2 ← hexVal? h2
            let v3 ← hexVal? h3
            let v4 ← hexVal? h4
            let (s, r) ← parseStrBody rest3
            some (Char.ofNat (((v1 * 16 + v2) * 16 + v3) * 16 + v4) :: s, r)
          | _ => none
        else do
          let esc ← unescapeChar e
          let (s, r) ← parseStrBody rest2
          some (esc :: s, r)
    else do
      let (s, r) ← parseStrBody rest
      some (c :: s, r)

/-- Single step of the value parser: `pe` / `pm` parse element and member
lists at one less fuel. -/
def parseValF (pe : List Char → Option (List Json × List Char))
    (pm : List Char → Option (List (String × Json) × List Char)) :
    List Char → Option (Json × List Char)
  | [] => none
  | c :: rest =>
    if c = 'n' then
      if rest.take 3 = ['u', 'l', 'l'] then some (.null, rest.drop 3) else none
    else if c = 't' then
      if rest.take 3 = ['r', 'u', 'e'] then some (.bool true, rest.drop 3) else none
    else if c = 'f' then
      if rest.take 4 = ['a', 'l', 's', 'e'] then some (.bool false, rest.drop 4) else none
    else if c = '"' then
      (parseStrBody rest).bind (fun p => some (.str ⟨p.1⟩, p.2))
    else if c = '-' then
      if rest.takeWhile isDigitChar = [] then none
      else some (.num (-(digitsToNat (rest.takeWhile isDigitChar) : Int)),
        rest.dropWhile isDigitChar)
    else if c = '[' then
      if rest.head? = some ']' then some (.arr [], rest.tail)
      else (pe rest).bind (fun p => some (.arr p.1, p.2))
    else if c = '\x7b' then
      if rest.head? = some '\x7d' then some (.obj [], rest.tail)
      else (pm rest).bind (fun p => some (.obj p.1, p.2))
    else if isDigitChar c then
      some (.num (digitsToNat ((c :: rest).takeWhile isDigitChar) : Int),
        (c :: rest).dropWhile isDigitChar)
    else none

/-- Single step of the element-list parser. -/
def parseElemsF (pv : List Char → Option (Json × List Char))
    (pe : List Char → Option (List Json × List Char))
    (cs : List Char) : Option (List Json × List Char) :=
  (pv cs).bind (fun p =>
    if p.2.head? = some ',' then (pe p.2.tail).bind (fun q => some (p.1 :: q.1, q.2))
    else if p.2.head? = some ']' then some ([p.1], p.2.tail)
    else none)

/-- Single step of the member-list parser. -/
def parseMembersF (pv : List Char → Option (Json × List Char))
    (pm : List Char → Option (List (String × Json) × List Char))
    (cs : List Char) : Option (List (String × Json) × List Char) :=
  if cs.head? = some '"' then
    (parseStrBody cs.tail).bind (fun kp =>
      if kp.2.head? = some ':' then
        (pv kp.2.tail).bind (fun vp =>
          if vp.2.head? = some ',' then
            (pm vp.2.tail).bind (fun q => some ((⟨kp.1⟩, vp.1) :: q.1, q.2))
          else if vp.2.head? = some '\x7d' then some ([(⟨kp.1⟩, vp.1)], vp.2.tail)
          else none)
      else none)
  else none

mutual
/-- Parser for one compact-JSON value; returns the value and the remaining
input.  `fuel` bounds the nesting depth and the total number of elements. -/
def parseVal : Nat → List Char → Option (Json × List Char)
  | 0, _ => none
  | fuel + 1, cs => parseValF (parseElems fuel) (parseMembers fuel) cs
termination_by structural fuel => fuel

/-- Parser for a nonempty comma-separated element list followed by `]`. -/
def parseElems : Nat → List Char → Option (List Json × List Char)
  | 0, _ => none
  | fuel + 1, cs => parseElemsF (parseVal fuel) (parseElems fuel) cs
termination_by structural fuel => fuel

/-- Parser for a nonempty comma-separated member list followed by the
closing brace. -/
def parseMembers : Nat → List Char → Option (List (String × Json) × List Char)
  | 0, _ => none
  | fuel + 1, cs => parseMembersF (parseVal fuel) (parseMembers fuel) cs
termination_by structural fuel => fuel
end

mutual
/-- Fuel bound sufficient for `parseVal` on the rendering of a value. -/
def jsize : Json → Nat
  | .null => 1
  | .bool _ => 1
  | .num _ => 1
  | .str _ => 1
  | .arr xs => 1 + esize xs
  | .obj fs => 1 + msize fs
termination_by structural j => j

/-- Fuel bound for `parseElems` on a rendered element list. -/
def esize : List Json → Nat
  | [] => 1
  | x :: xs => 1 + jsize x + esize xs
termination_by structural xs => xs

/-- Fuel bound for `parseMembers` on a rendered member list. -/
def msize : List (String × Json) → Nat
  | [] => 1
  | (_, v) :: fs => 1 + jsize v + msize fs
termination_by structural fs => fs
end

/-! ### Round trip: the parser inverts the serializer -/

theorem toNat_ofNat_of_lt {n : Nat} (h : n < 55296) : (Char.ofNat n).toNat = n := by
  have hv : n.isValidChar := Or.inl h
  rw [Char.ofNat, dif_pos hv]
  simp [Char.ofNatAux, Char.toNat, UInt32.ofNat', UInt32.toNat, BitVec.toNat_ofNatLt]

theorem digitChar_toNat {d : Nat} (h : d < 10) : (digitChar d).toNat = 48 + d :=
  toNat_ofNat_of_lt (by omega)

theorem isDigitChar_digitChar {d : Nat} (h : d < 10) : isDigitChar (digitChar d) = true := by
  simp [isDigitChar, digitChar_toNat h]
  omega

theorem digitVal_digitChar {d : Nat} (h : d < 10) : digitVal (digitChar d) = d := by
  simp [digitVal, digitChar_toNat h]

theorem hexVal?_hexDigitChar {d : Nat} (h : d < 16) : hexVal? (hexDigitChar d) = some d := by
  interval_cases d <;> decide

/-- Reference decimal rendering, most significant digit first. -/
def digitsOf (n : Nat) : List Char :=
  if h : n = 0 then [] else digitsOf (n / 10) ++ [digitChar (n % 10)]
termination_by n
decreasing_by exact Nat.div_lt_self (Nat.pos_of_ne_zero h) (by omega)

theorem natToCharsAux_eq : ∀ fuel n acc, n ≤ fuel →
    natToCharsAux fuel n acc = digitsOf n ++ acc := by
  intro fuel
  induction fuel with
  | zero =>
    intro n acc h
    have hn : n = 0 := Nat.le_zero.mp h
    subst hn
    rw [digitsOf]
    rfl
  | succ fuel ih =>
    intro n acc h
    by_cases hn : n = 0
    · subst hn
      rw [digitsOf]
      rfl
    · have hrec : digitsOf n = digitsOf (n / 10) ++ [digitChar (n % 10)] := by
        conv_lhs => rw [digitsOf]
        rw [dif_neg hn]
      rw [natToCharsAux, if_neg hn, ih _ _ (by
        have := Nat.div_lt_self (Nat.pos_of_ne_zero hn) (show 1 < 10 by omega)
        omega), hrec]
      simp

theorem natToChars_eq (n : Nat) :
    natToChars n = if n = 0 then ['0'] else digitsOf n := by
  by_cases hn : n = 0
  · simp [natToChars, hn]
  · rw [natToChars, if_neg hn, if_neg hn, natToCharsAux_eq n n [] (Nat.le_refl _)]
    simp

theorem digitsOf_digits : ∀ n, ∀ c ∈ digitsOf n, isDigitChar c = true := by
  intro n
  induction n using Nat.strong_induction_on with
  | _ n ih =>
    intro c hc
    by_cases hn : n = 0
    · subst hn; rw [digitsOf] at hc; simp at hc
    · rw [digitsOf, dif_neg hn] at hc
      rcases List.mem_append.mp hc with h | h
      · exact ih (n / 10) (Nat.div_lt_self (Nat.pos_of_ne_zero hn) (by omega)) c h
      · simp at h
        subst h
        exact isDigitChar_digitChar (Nat.mod_lt _ (by omega))

theorem digitsOf_ne_nil {n : Nat} (h : n ≠ 0) : digitsOf n ≠ [] := by
  rw [digitsOf, dif_neg h]
  simp

theorem foldl_digitsOf : ∀ n a,
    (digitsOf n).foldl (fun x c => x * 10 + digitVal c) a =
      a * 10 ^ (digitsOf n).length + n := by
  intro n
  induction n using Nat.strong_induction_on with
  | _ n ih =>
    intro a
    by_cases hn : n = 0
    · subst hn; rw [digitsOf]; simp
    · rw [digitsOf, dif_neg hn]
      rw [List.foldl_append, ih (n / 10) (Nat.div_lt_self (Nat.pos_of_ne_zero hn) (by omega))]
      simp [digitVal_digitChar (Nat.mod_lt n (show 0 < 10 by omega))]
      rw [Nat.pow_succ]
      have := Nat.div_add_mod n 10
      ring_nf
      omega

theorem digitsToNat_digitsOf (n : Nat) : digitsToNat (digitsOf n) = n := by
  rw [digitsToNat, foldl_digitsOf]
  simp

theorem takeWhile_digits_append : ∀ ds rest : List Char, (∀ c ∈ ds, isDigitChar c = true) →
    (∀ c, rest.head? = some c → isDigitChar c = false) →
    (ds ++ rest).takeWhile isDigitChar = ds ∧ (ds ++ rest).dropWhile isDigitChar = rest := by
  intro ds
  induction ds with
  | nil =>
    intro rest _ hrest
    cases rest with
    | nil => simp
    | cons c cs =>
      have := hrest c rfl
      simp [List.takeWhile, List.dropWhile, this]
  | cons d ds ih =>
    intro rest hds hrest
    have hd : isDigitChar d = true := hds d (by simp)
    have := ih rest (fun c hc => hds c (by simp [hc])) hrest
    simp [List.takeWhile, List.dropWhile, hd, this.1, this.2]

theorem digit_head_ne {c : Char} (h : isDigitChar c = true) :
    c ≠ 'n' ∧ c ≠ 't' ∧ c ≠ 'f' ∧ c ≠ '"' ∧ c ≠ '-' ∧ c ≠ '[' ∧ c ≠ '\x7b' ∧
      c ≠ ']' ∧ c ≠ '\x7d' := by
  refine ⟨?_, ?_, ?_, ?_, ?_, ?_, ?_, ?_, ?_⟩ <;> (rintro rfl; simp [isDigitChar] at h)

theorem parseStrBody_escape : ∀ s rest : List Char,
    parseStrBody (escapeChars s ++ '"' :: rest) = some (s, rest) := by
  intro s
  induction s with
  | nil =>
    intro rest
    show parseStrBody ([] ++ '"' :: rest) = some ([], rest)
    rw [List.nil_append, parseStrBody.eq_def]
    rfl
  | cons c s ih =>
    intro rest
    have hassoc : escapeChars (c :: s) ++ '"' :: rest =
        escapeChar c ++ (escapeChars s ++ '"' :: rest) := by
      simp [escapeChars]
    rw [hassoc]
    by_cases h1 : c = '"'
    · subst h1
      have hesc : escapeChar '"' = ['\\', '"'] := rfl
      rw [hesc, List.cons_append, List.cons_append, List.nil_append, parseStrBody.eq_def]
      simp [unescapeChar, ih]
    by_cases h2 : c = '\\'
    · subst h2
      have hesc : escapeChar '\\' = ['\\', '\\'] := rfl
      rw [hesc, List.cons_append, List.cons_append, List.nil_append, parseStrBody.eq_def]
      simp [unescapeChar, ih]
    by_cases h3 : c = '\x08'
    · subst h3
      have hesc : escapeChar '\x08' = ['\\', 'b'] := rfl
      rw [hesc, List.cons_append, List.cons_append, List.nil_append, parseStrBody.eq_def]
      simp [unescapeChar, ih]
    by_cases h4 : c = '\x09'
    · subst h4
      have hesc : escapeChar '\x09' = ['\\', 't'] := rfl
      rw [hesc, List.cons_append, List.cons_append, List.nil_append, parseStrBody.eq_def]
      simp [unescapeChar, ih]
    by_cases h5 : c = '\x0a'
    · subst h5
      have hesc : escapeChar '\x0a' = ['\\', 'n'] := rfl
      rw [hesc, List.cons_append, List.cons_append, List.nil_append, parseStrBody.eq_def]
      simp [unescapeChar, ih]
    by_cases h6 : c = '\x0c'
    · subst h6
      have hesc : escapeChar '\x0c' = ['\\', 'f'] := rfl
      rw [hesc, List.cons_append, List.cons_append, List.nil_append, parseStrBody.eq_def]
      simp [unescapeChar, ih]
    by_cases h7 : c = '\x0d'
    · subst h7
      have hesc : escapeChar '\x0d' = ['\\', 'r'] := rfl
      rw [hesc, List.cons_append, List.cons_append, List.nil_append, parseStrBody.eq_def]
      simp [unescapeChar, ih]
    by_cases h8 : c.toNat < 32
    · have hesc : escapeChar c =
          ['\\', 'u', '0', '0', hexDigitChar (c.toNat / 16), hexDigitChar (c.toNat % 16)] := by
        rw [escapeChar, if_neg h1, if_neg h2, if_neg h3, if_neg h4, if_neg h5, if_neg h6,
          if_neg h7, if_pos h8]
      rw [hesc]
      have hv1 : hexVal? (hexDigitChar (c.toNat / 16)) = some (c.toNat / 16) :=
        hexVal?_hexDigitChar (by omega)
      have hv2 : hexVal? (hexDigitChar (c.toNat % 16)) = some (c.toNat % 16) :=
        hexVal?_hexDigitChar (Nat.mod_lt _ (by omega))
      simp only [List.cons_append, List.nil_append]
      rw [parseStrBody.eq_def]
      have h0 : hexVal? '0' = some 0 := rfl
      simp [h0, hv1, hv2, ih]
      rw [show c.toNat / 16 * 16 + c.toNat % 16 = c.toNat by omega]
      exact Char.ofNat_toNat c
    · have hesc : escapeChar c = [c] := by
        rw [escapeChar, if_neg h1, if_neg h2, if_neg h3, if_neg h4, if_neg h5, if_neg h6,
          if_neg h7, if_neg h8]
      rw [hesc]
      simp only [List.cons_append, List.nil_append]
      rw [parseStrBody.eq_def]
      simp only []
      rw [if_neg h1, if_neg h2, ih]
      rfl

theorem stringifyJson_head : ∀ v : Json, ∃ c cs, stringifyJson v = c :: cs ∧
    c ≠ ']' ∧ c ≠ '\x7d' := by
  intro v
  cases v with
  | null => exact ⟨'n', _, rfl, by decide, by decide⟩
  | bool b =>
    cases b with
    | true => exact ⟨'t', _, rfl, by decide, by decide⟩
    | false => exact ⟨'f', _, rfl, by decide, by decide⟩
  | num i =>
    show ∃ c cs, intToChars i = c :: cs ∧ c ≠ ']' ∧ c ≠ '\x7d'
    rw [intToChars]
    by_cases hi : i < 0
    · rw [if_pos hi]
      exact ⟨'-', _, rfl, by decide, by decide⟩
    · rw [if_neg hi, natToChars_eq]
      by_cases hz : i.natAbs = 0
      · rw [if_pos hz]
        exact ⟨'0', _, rfl, by decide, by decide⟩
      · rw [if_neg hz]
        obtain ⟨c, cs, hcons⟩ := List.exists_cons_of_ne_nil (digitsOf_ne_nil hz)
        have hdig : isDigitChar c = true :=
          digitsOf_digits _ c (by rw [hcons]; exact List.mem_cons_self _ _)
        have := digit_head_ne hdig
        exact ⟨c, cs, hcons, this.2.2.2.2.2.2.2.1, this.2.2.2.2.2.2.2.2⟩
  | str s => exact ⟨'"', _, rfl, by decide, by decide⟩
  | arr xs =>
    cases xs with
    | nil => exact ⟨'[', _, rfl, by decide, by decide⟩
    | cons x xs => exact ⟨'[', _, rfl, by decide, by decide⟩
  | obj fs =>
    cases fs with
    | nil => exact ⟨'\x7b', _, rfl, by decide, by decide⟩
    | cons f fs =>
      obtain ⟨k, v⟩ := f
      exact ⟨'\x7b', _, rfl, by decide, by decide⟩

/-- Condition on the text following a rendered value: it must not begin
with a digit (inside rendered JSON it begins with `,`, `]`, the closing
brace, or is empty). -/
def restOk (rest : List Char) : Prop := ∀ c, rest.head? = some c → isDigitChar c = false

theorem jsize_pos : ∀ v, 1 ≤ jsize v := by
  intro v
  cases v <;> simp [jsize]

theorem esize_pos : ∀ xs, 1 ≤ esize xs := by
  intro xs
  cases xs with
  | nil => simp [esize]
  | cons x xs => simp [esize]; omega

theorem msize_pos : ∀ fs, 1 ≤ msize fs := by
  intro fs
  cases fs with
  | nil => simp [msize]
  | cons f fs => obtain ⟨k, v⟩ := f; simp [msize]; omega

theorem restOk_elems (xs : List Json) (l : List Char) :
    restOk (stringifyElemsRest xs ++ ']' :: l) := by
  cases xs with
  | nil => intro c hc; simp [stringifyElemsRest] at hc; subst hc; decide
  | cons y ys =>
    intro c hc
    simp [stringifyElemsRest] at hc
    subst hc
    decide

theorem restOk_members (fs : List (String × Json)) (l : List Char) :
    restOk (stringifyFieldsRest fs ++ '\x7d' :: l) := by
  cases fs with
  | nil => intro c hc; simp [stringifyFieldsRest] at hc; subst hc; decide
  | cons f fs =>
    obtain ⟨k, v⟩ := f
    intro c hc
    simp [stringifyFieldsRest] at hc
    subst hc
    decide

theorem parseVal_succ (fuel : Nat) (cs : List Char) :
    parseVal (fuel + 1) cs = parseValF (parseElems fuel) (parseMembers fuel) cs := by
  rw [parseVal]

theorem parseElems_succ (fuel : Nat) (cs : List Char) :
    parseElems (fuel + 1) cs = parseElemsF (parseVal fuel) (parseElems fuel) cs := by
  rw [parseElems]

theorem parseMembers_succ (fuel : Nat) (cs : List Char) :
    parseMembers (fuel + 1) cs = parseMembersF (parseVal fuel) (parseMembers fuel) cs := by
  rw [parseMembers]

theorem parseValF_null (pe pm) (r : List Char) :
    parseValF pe pm ('n' :: 'u' :: 'l' :: 'l' :: r) = some (.null, r) := by
  rw [parseValF]
  simp

theorem parseValF_true (pe pm) (r : List Char) :
    parseValF pe pm ('t' :: 'r' :: 'u' :: 'e' :: r) = some (.bool true, r) := by
  rw [parseValF]
  simp

theorem parseValF_false (pe pm) (r : List Char) :
    parseValF pe pm ('f' :: 'a' :: 'l' :: 's' :: 'e' :: r) = some (.bool false, r) := by
  rw [parseValF]
  simp

theorem parseValF_quote (pe pm) (r : List Char) :
    parseValF pe pm ('"' :: r) =
      (parseStrBody r).bind (fun p => some (.str ⟨p.1⟩, p.2)) := by
  rw [parseValF]
  simp only []
  rw [if_neg (by decide), if_neg (by decide), if_neg (by decide)]
  simp only [if_true]

theorem parseValF_minus (pe pm) (r : List Char) :
    parseValF pe pm ('-' :: r) =
      (if r.takeWhile isDigitChar = [] then none
       else some (.num (-(digitsToNat (r.takeWhile isDigitChar) : Int)),
         r.dropWhile isDigitChar)) := by
  rw [parseValF]
  simp only []
  rw [if_neg (by decide), if_neg (by decide), if_neg (by decide), if_neg (by decide)]
  simp only [if_true]

theorem parseValF_arrNil (pe pm) (r : List Char) :
    parseValF pe pm ('[' :: ']' :: r) = some (.arr [], r) := by
  rw [parseValF]
  simp only []
  rw [if_neg (by decide), if_neg (by decide), if_neg (by decide), if_neg (by decide),
    if_neg (by decide)]
  simp only [if_true]
  rw [if_pos (by simp)]
  rfl

theorem parseValF_arr (pe pm) (l : List Char) (hne : l.head? ≠ some ']') :
    parseValF pe pm ('[' :: l) = (pe l).bind (fun p => some (.arr p.1, p.2)) := by
  rw [parseValF]
  simp only []
  rw [if_neg (by decide), if_neg (by decide), if_neg (by decide), if_neg (by decide),
    if_neg (by decide)]
  simp only [if_true]
  rw [if_neg hne]

theorem parseValF_objNil (pe pm) (r : List Char) :
    parseValF pe pm ('\x7b' :: '\x7d' :: r) = some (.obj [], r) := by
  rw [parseValF]
  simp only []
  rw [if_neg (by decide), if_neg (by decide), if_neg (by decide), if_neg (by decide),
    if_neg (by decide), if_neg (by decide)]
  simp only [if_true]
  rw [if_pos (by simp)]
  rfl

theorem parseValF_obj (pe pm) (l : List Char) (hne : l.head? ≠ some '\x7d') :
    parseValF pe pm ('\x7b' :: l) = (pm l).bind (fun p => some (.obj p.1, p.2)) := by
  rw [parseValF]
  simp only []
  rw [if_neg (by decide), if_neg (by decide), if_neg (by decide), if_neg (by decide),
    if_neg (by decide), if_neg (by decide)]
  simp only [if_true]
  rw [if_neg hne]

theorem parseValF_digit (pe pm) (c : Char) (r : List Char) (hd : isDigitChar c = true) :
    parseValF pe pm (c :: r) =
      some (.num (digitsToNat ((c :: r).takeWhile isDigitChar) : Int),
        (c :: r).dropWhile isDigitChar) := by
  obtain ⟨hn1, hn2, hn3, hn4, hn5, hn6, hn7, _, _⟩ := digit_head_ne hd
  rw [parseValF]
  rw [if_neg hn1, if_neg hn2, if_neg hn3, if_neg hn4, if_neg hn5, if_neg hn6, if_neg hn7,
    if_pos hd]

theorem parse_stringify_all : ∀ fuel : Nat,
    (∀ v rest, jsize v ≤ fuel → restOk rest →
      parseVal fuel (stringifyJson v ++ rest) = some (v, rest)) ∧
    (∀ x xs rest, 1 + jsize x + esize xs ≤ fuel → restOk rest →
      parseElems fuel (stringifyJson x ++ (stringifyElemsRest xs ++ ']' :: rest)) =
        some (x :: xs, rest)) ∧
    (∀ ks v fs rest, 1 + jsize v + msize fs ≤ fuel → restOk rest →
      parseMembers fuel ('"' :: (escapeChars ks ++ '"' :: ':' ::
        (stringifyJson v ++ (stringifyFieldsRest fs ++ '\x7d' :: rest)))) =
        some ((⟨ks⟩, v) :: fs, rest)) := by
  intro fuel
  induction fuel with
  | zero =>
    refine ⟨?_, ?_, ?_⟩
    · intro v rest hsz _
      exact absurd hsz (by have := jsize_pos v; omega)
    · intro x xs rest hsz _
      exact absurd hsz (by omega)
    · intro ks v fs rest hsz _
      exact absurd hsz (by omega)
  | succ fuel ih =>
    obtain ⟨ihv, ihe, ihm⟩ := ih
    refine ⟨?_, ?_, ?_⟩
    · -- values
      intro v rest hsz hrest
      cases v with
      | null =>
        show parseVal (fuel + 1) (['n', 'u', 'l', 'l'] ++ rest) = some (.null, rest)
        simp only [List.cons_append, List.nil_append]
        rw [parseVal_succ, parseValF_null]
      | bool b =>
        cases b with
        | true =>
          show parseVal (fuel + 1) (['t', 'r', 'u', 'e'] ++ rest) = some (.bool true, rest)
          simp only [List.cons_append, List.nil_append]
          rw [parseVal_succ, parseValF_true]
        | false =>
          show parseVal (fuel + 1) (['f', 'a', 'l', 's', 'e'] ++ rest) =
            some (.bool false, rest)
          simp only [List.cons_append, List.nil_append]
          rw [parseVal_succ, parseValF_false]
      | num i =>
        show parseVal (fuel + 1) (intToChars i ++ rest) = some (.num i, rest)
        rw [intToChars]
        by_cases hi : i < 0
        · rw [if_pos hi, natToChars_eq]
          have hz : i.natAbs ≠ 0 := by omega
          rw [if_neg hz]
          obtain ⟨htw, hdw⟩ :=
            takeWhile_digits_append (digitsOf i.natAbs) rest (digitsOf_digits _) hrest
          simp only [List.cons_append]
          rw [parseVal_succ, parseValF_minus, htw, hdw, if_neg (digitsOf_ne_nil hz),
            digitsToNat_digitsOf]
          have : ((i.natAbs : Int)) = -i := by omega
          rw [this, neg_neg]
        · rw [if_neg hi, natToChars_eq]
          by_cases hz : i.natAbs = 0
          · rw [if_pos hz]
            have hone : ∀ c ∈ ['0'], isDigitChar c = true := by decide
            obtain ⟨htw, hdw⟩ := takeWhile_digits_append ['0'] rest hone hrest
            simp only [List.singleton_append] at htw hdw
            show parseVal (fuel + 1) ('0' :: rest) = some (.num i, rest)
            rw [parseVal_succ, parseValF_digit _ _ '0' rest (by decide), htw, hdw]
            have h0 : digitsToNat ['0'] = 0 := rfl
            rw [h0]
            have : i = 0 := by omega
            rw [this]
            rfl
          · rw [if_neg hz]
            obtain ⟨c, cs, hcons⟩ := List.exists_cons_of_ne_nil (digitsOf_ne_nil hz)
            have hdig : isDigitChar c = true :=
              digitsOf_digits _ c (by rw [hcons]; exact List.mem_cons_self _ _)
            obtain ⟨htw, hdw⟩ :=
              takeWhile_digits_append (digitsOf i.natAbs) rest (digitsOf_digits _) hrest
            rw [hcons] at htw hdw ⊢
            simp only [List.cons_append] at htw hdw ⊢
            rw [parseVal_succ, parseValF_digit _ _ c (cs ++ rest) hdig, htw, hdw,
              ← hcons, digitsToNat_digitsOf]
            have : ((i.natAbs : Int)) = i := by omega
            rw [this]
      | str s =>
        show parseVal (fuel + 1) (quoteChars s.data ++ rest) = some (.str s, rest)
        rw [quoteChars]
        simp only [List.cons_append, List.append_assoc, List.singleton_append]
        rw [parseVal_succ, parseValF_quote, parseStrBody_escape]
        rfl
      | arr xs =>
        cases xs with
        | nil =>
          show parseVal (fuel + 1) (['[', ']'] ++ rest) = some (.arr [], rest)
          simp only [List.cons_append, List.nil_append]
          rw [parseVal_succ, parseValF_arrNil]
        | cons x xs =>
          have hdef : stringifyJson (.arr (x :: xs)) ++ rest =
              '[' :: (stringifyJson x ++ (stringifyElemsRest xs ++ ']' :: rest)) := by
            show ('[' :: (stringifyJson x ++ stringifyElemsRest xs ++ [']'])) ++ rest = _
            simp [List.append_assoc]
          rw [hdef, parseVal_succ]
          obtain ⟨hc, hcs, hhead, hne1, _⟩ := stringifyJson_head x
          rw [parseValF_arr _ _ _ (by rw [hhead]; simp [hne1])]
          have hbound : 1 + jsize x + esize xs ≤ fuel := by
            have : jsize (Json.arr (x :: xs)) = 1 + (1 + jsize x + esize xs) := by
              simp [jsize, esize]
            omega
          rw [ihe x xs rest hbound hrest]
          rfl
      | obj fs =>
        cases fs with
        | nil =>
          show parseVal (fuel + 1) (['\x7b', '\x7d'] ++ rest) = some (.obj [], rest)
          simp only [List.cons_append, List.nil_append]
          rw [parseVal_succ, parseValF_objNil]
        | cons f fs =>
          obtain ⟨k, v⟩ := f
          have hdef : stringifyJson (.obj ((k, v) :: fs)) ++ rest =
              '\x7b' :: ('"' :: (escapeChars k.data ++ '"' :: ':' ::
                (stringifyJson v ++ (stringifyFieldsRest fs ++ '\x7d' :: rest)))) := by
            show ('\x7b' :: (quoteChars k.data ++ ':' :: stringifyJson v ++
              stringifyFieldsRest fs ++ ['\x7d'])) ++ rest = _
            rw [quoteChars]
            simp [List.append_assoc]
          rw [hdef, parseVal_succ]
          rw [parseValF_obj _ _ _ (by simp)]
          have hbound : 1 + jsize v + msize fs ≤ fuel := by
            have : jsize (Json.obj ((k, v) :: fs)) = 1 + (1 + jsize v + msize fs) := by
              simp [jsize, msize]
            omega
          rw [ihm k.data v fs rest hbound hrest]
          rfl
    · -- element lists
      intro x xs rest hsz hrest
      rw [parseElems_succ, parseElemsF]
      have hbx : jsize x ≤ fuel := by omega
      rw [ihv x (stringifyElemsRest xs ++ ']' :: rest) hbx (restOk_elems xs rest)]
      simp only [Option.some_bind]
      cases xs with
      | nil =>
        simp [stringifyElemsRest]
      | cons y ys =>
        rw [stringifyElemsRest]
        simp only [List.cons_append, List.append_assoc, List.head?_cons, List.tail_cons]
        simp only [if_true]
        have hbound : 1 + jsize y + esize ys ≤ fuel := by
          have hx := jsize_pos x
          have : esize (y :: ys) = 1 + jsize y + esize ys := by simp [esize]
          omega
        rw [ihe y ys rest hbound hrest]
        rfl
    · -- member lists
      intro ks v fs rest hsz hrest
      rw [parseMembers_succ, parseMembersF]
      simp only [List.head?_cons, List.tail_cons, if_true]
      rw [parseStrBody_escape]
      simp only [Option.some_bind, List.head?_cons, List.tail_cons, if_true]
      have hbv : jsize v ≤ fuel := by omega
      rw [ihv v (stringifyFieldsRest fs ++ '\x7d' :: rest) hbv (restOk_members fs rest)]
      simp only [Option.some_bind]
      cases fs with
      | nil =>
        simp [stringifyFieldsRest]
      | cons f fs2 =>
        obtain ⟨k2, v2⟩ := f
        rw [stringifyFieldsRest, quoteChars]
        simp only [List.cons_append, List.append_assoc, List.head?_cons, List.tail_cons,
          List.singleton_append, List.nil_append, if_true]
        have hbound : 1 + jsize v2 + msize fs2 ≤ fuel := by
          have hv := jsize_pos v
          have : msize ((k2, v2) :: fs2) = 1 + jsize v2 + msize fs2 := by simp [msize]
          omega
        rw [ihm k2.data v2 fs2 rest hbound hrest]
        rfl

/-! ### Canonicalization properties -/

theorem sortJsonFields_keys : ∀ fs,
    (sortJsonFields fs).map Prod.fst = fs.map Prod.fst := by
  intro fs
  rw [sortJsonFields_eq_map]
  simp

theorem sortJsonFields_of_fixed : ∀ fs, (∀ p ∈ fs, sortJsonKeys p.2 = p.2) →
    sortJsonFields fs = fs := by
  intro fs h
  rw [sortJsonFields_eq_map]
  conv_rhs => rw [← List.map_id fs]
  refine List.map_congr_left (fun p hp => ?_)
  obtain ⟨k, v⟩ := p
  have := h (k, v) hp
  simp at this ⊢
  exact this

theorem sortJsonKeys_idem : ∀ v, sortJsonKeys (sortJsonKeys v) = sortJsonKeys v := by
  refine Json.mutualInd _ rfl (fun b => rfl) (fun n => rfl) (fun s => rfl) ?_ ?_
  · intro xs ih
    show Json.arr (sortJsonList (sortJsonList xs)) = Json.arr (sortJsonList xs)
    rw [sortJsonList_eq_map, sortJsonList_eq_map, List.map_map]
    congr 1
    refine List.map_congr_left (fun x hx => ?_)
    exact ih x hx
  · intro fs ih
    show Json.obj (List.insertionSort keyLE (sortJsonFields
        (List.insertionSort keyLE (sortJsonFields fs)))) = _
    have hfix : ∀ p ∈ List.insertionSort keyLE (sortJsonFields fs), sortJsonKeys p.2 = p.2 := by
      intro p hp
      have hp2 : p ∈ sortJsonFields fs := (List.mem_insertionSort keyLE).mp hp
      rw [sortJsonFields_eq_map] at hp2
      obtain ⟨q, hq, hqe⟩ := List.mem_map.mp hp2
      subst hqe
      exact ih q hq
    rw [sortJsonFields_of_fixed _ hfix,
      List.Sorted.insertionSort_eq (List.sorted_insertionSort keyLE (sortJsonFields fs))]
    rfl

theorem string_ext_of_data {a b : String} (h : a.data = b.data) : a = b := by
  cases a
  cases b
  exact congrArg String.mk h

theorem keyLT_of_keyLE_ne {a b : String × Json} (hle : keyLE a b) (hne : a.1 ≠ b.1) :
    keyLT a b := by
  unfold keyLE at hle
  unfold keyLT
  cases h : ltChars a.1.data b.1.data with
  | true => rfl
  | false =>
    exact absurd (string_ext_of_data (ltChars_connex _ _ h hle)) hne

/-- Two lists of fields that are sorted by key, are permutations of each
other, and have duplicate-free keys are equal. -/
theorem sorted_perm_eq {l₁ l₂ : List (String × Json)}
    (hp : l₁.Perm l₂) (hs₁ : List.Sorted keyLE l₁) (hs₂ : List.Sorted keyLE l₂)
    (hnd : (l₁.map Prod.fst).Nodup) : l₁ = l₂ := by
  have hnd₂ : (l₂.map Prod.fst).Nodup := ((hp.map Prod.fst).nodup_iff).mp hnd
  have hlt₁ : List.Sorted keyLT l₁ := by
    have hpair := (List.pairwise_map.mp hnd)
    exact (hs₁.and hpair).imp (fun h => keyLT_of_keyLE_ne h.1 h.2)
  have hlt₂ : List.Sorted keyLT l₂ := by
    have hpair := (List.pairwise_map.mp hnd₂)
    exact (hs₂.and hpair).imp (fun h => keyLT_of_keyLE_ne h.1 h.2)
  exact List.eq_of_perm_of_sorted hp hlt₁ hlt₂

/-! ### Structural equivalence up to key insertion order -/

/-- Two JSON values are structurally equal up to the insertion order of
object fields: scalars must match exactly, arrays must match elementwise
in order, and objects must carry the same keys with `JEquiv`-equivalent
values, in a possibly different order. -/
inductive JEquiv : Json → Json → Prop where
  | null : JEquiv .null .null
  | bool (b : Bool) : JEquiv (.bool b) (.bool b)
  | num (n : Int) : JEquiv (.num n) (.num n)
  | str (s : String) : JEquiv (.str s) (.str s)
  | arr {xs ys : List Json} : List.Forall₂ JEquiv xs ys → JEquiv (.arr xs) (.arr ys)
  | obj {fs gs hs : List (String × Json)} :
      fs.map Prod.fst = gs.map Prod.fst →
      List.Forall₂ JEquiv (fs.map Prod.snd) (gs.map Prod.snd) →
      gs.Perm hs → JEquiv (.obj fs) (.obj hs)

mutual
/-- Well-formedness as produced by JS object literals: every object's key
list is duplicate-free (at every nesting level). -/
def wfJson : Json → Bool
  | .null => true
  | .bool _ => true
  | .num _ => true
  | .str _ => true
  | .arr xs => wfList xs
  | .obj fs => decide ((fs.map Prod.fst).Nodup) && wfFields fs
termination_by structural j => j

/-- Well-formedness of an array's elements. -/
def wfList : List Json → Bool
  | [] => true
  | x :: xs => wfJson x && wfList xs
termination_by structural xs => xs

/-- Well-formedness of an object's field values. -/
def wfFields : List (String × Json) → Bool
  | [] => true
  | (_, v) :: fs => wfJson v && wfFields fs
termination_by structural fs => fs
end

theorem wfList_mem : ∀ xs, wfList xs = true → ∀ x ∈ xs, wfJson x = true := by
  intro xs
  induction xs with
  | nil => intro _ x hx; simp at hx
  | cons y ys ih =>
    intro h x hx
    rw [wfList, Bool.and_eq_true] at h
    rcases List.mem_cons.mp hx with hx | hx
    · subst hx; exact h.1
    · exact ih h.2 x hx

theorem wfFields_mem : ∀ fs, wfFields fs = true → ∀ p ∈ fs, wfJson p.2 = true := by
  intro fs
  induction fs with
  | nil => intro _ p hp; simp at hp
  | cons q qs ih =>
    obtain ⟨k, v⟩ := q
    intro h p hp
    rw [wfFields, Bool.and_eq_true] at h
    rcases List.mem_cons.mp hp with hp | hp
    · subst hp; exact h.1
    · exact ih h.2 p hp

/-- Canonicalization is independent of object-field insertion order:
structurally equivalent well-formed values sort to the same value. -/
theorem sortJsonKeys_equiv : ∀ a b, JEquiv a b → wfJson a = true →
    sortJsonKeys a = sortJsonKeys b := by
  have key : ∀ n a b, sizeOf a ≤ n → JEquiv a b → wfJson a = true →
      sortJsonKeys a = sortJsonKeys b := by
    intro n
    induction n with
    | zero =>
      intro a b hsz _ _
      exfalso
      cases a <;> simp at hsz
    | succ n ih =>
      intro a b hsz heq hwf
      cases heq with
      | null => rfl
      | bool b => rfl
      | num m => rfl
      | str s => rfl
      | arr hlist =>
        rename_i xs ys
        show Json.arr (sortJsonList xs) = Json.arr (sortJsonList ys)
        congr 1
        have hsx : ∀ x ∈ xs, sizeOf x ≤ n := by
          intro x hx
          have h1 : sizeOf x < sizeOf xs := List.sizeOf_lt_of_mem hx
          have h2 : sizeOf (Json.arr xs) = 1 + sizeOf xs := by simp
          omega
        have hwx := wfList_mem xs hwf
        clear hsz hwf
        induction hlist with
        | nil => rfl
        | cons hxy hrest ihl =>
          rename_i x y xs2 ys2
          rw [sortJsonList, sortJsonList]
          rw [ih x y (hsx x (by simp)) hxy (hwx x (by simp))]
          congr 1
          exact ihl (fun x2 hx2 => hsx x2 (by simp [hx2]))
            (fun x2 hx2 => hwx x2 (by simp [hx2]))
      | obj hkeys hvals hperm =>
        rename_i fs gs hs
        show Json.obj (List.insertionSort keyLE (sortJsonFields fs)) =
          Json.obj (List.insertionSort keyLE (sortJsonFields hs))
        congr 1
        rw [wfJson, Bool.and_eq_true, decide_eq_true_eq] at hwf
        obtain ⟨hnd, hwfF⟩ := hwf
        have hsf : ∀ p ∈ fs, sizeOf p.2 ≤ n := by
          intro p hp
          have h1 : sizeOf p < sizeOf fs := List.sizeOf_lt_of_mem hp
          have h2 : sizeOf (Json.obj fs) = 1 + sizeOf fs := by simp
          have h3 : sizeOf p.2 < sizeOf p := by
            obtain ⟨a, b⟩ := p
            simp only [Prod.mk.sizeOf_spec]
            omega
          omega
        have hwfm := wfFields_mem fs hwfF
        have hfg : ∀ fs2 gs2 : List (String × Json),
            fs2.map Prod.fst = gs2.map Prod.fst →
            List.Forall₂ JEquiv (fs2.map Prod.snd) (gs2.map Prod.snd) →
            (∀ p ∈ fs2, sizeOf p.2 ≤ n) → (∀ p ∈ fs2, wfJson p.2 = true) →
            sortJsonFields fs2 = sortJsonFields gs2 := by
          intro fs2
          induction fs2 with
          | nil =>
            intro gs2 hk _ _ _
            cases gs2 with
            | nil => rfl
            | cons q qs => simp at hk
          | cons p ps ihf =>
            intro gs2 hk hv hsb hwb
            cases gs2 with
            | nil => simp at hk
            | cons q qs =>
              obtain ⟨k, v⟩ := p
              obtain ⟨k2, w⟩ := q
              simp only [List.map_cons, List.cons.injEq] at hk
              simp only [List.map_cons] at hv
              cases hv with
              | cons hvw hrest =>
                rw [sortJsonFields, sortJsonFields,
                  ih v w (hsb (k, v) (by simp)) hvw (hwb (k, v) (by simp)), hk.1]
                congr 1
                exact ihf qs hk.2 hrest (fun p hp => hsb p (by simp [hp]))
                  (fun p hp => hwb p (by simp [hp]))
        have hfgs := hfg fs gs hkeys hvals hsf hwfm
        rw [hfgs]
        have hpermS : (sortJsonFields gs).Perm (sortJsonFields hs) := by
          rw [sortJsonFields_eq_map, sortJsonFields_eq_map]
          exact hperm.map _
        have hndg : ((sortJsonFields gs).map Prod.fst).Nodup := by
          rw [sortJsonFields_keys, ← hkeys]
          exact hnd
        refine sorted_perm_eq ?_ ?_ ?_ ?_
        · exact ((List.perm_insertionSort keyLE _).trans hpermS).trans
            (List.perm_insertionSort keyLE _).symm
        · exact List.sorted_insertionSort keyLE _
        · exact List.sorted_insertionSort keyLE _
        · exact ((List.perm_insertionSort keyLE (sortJsonFields gs)).map Prod.fst).nodup_iff.mpr
            hndg
  exact fun a b => key (sizeOf a) a b (Nat.le_refl _)

/-! ### Absence of whitespace in the output -/

/-- JSON-insignificant whitespace characters. -/
def isWsChar (c : Char) : Bool := c = ' ' || c = '\x09' || c = '\x0a' || c = '\x0d'

mutual
/-- No string scalar or object key in the value contains whitespace. -/
def noWsJson : Json → Bool
  | .null => true
  | .bool _ => true
  | .num _ => true
  | .str s => s.data.all (fun c => !isWsChar c)
  | .arr xs => noWsList xs
  | .obj fs => noWsFields fs
termination_by structural j => j

/-- Whitespace-freedom of an array's elements. -/
def noWsList : List Json → Bool
  | [] => true
  | x :: xs => noWsJson x && noWsList xs
termination_by structural xs => xs

/-- Whitespace-freedom of an object's keys and values. -/
def noWsFields : List (String × Json) → Bool
  | [] => true
  | (k, v) :: fs => k.data.all (fun c => !isWsChar c) && noWsJson v && noWsFields fs
termination_by structural fs => fs
end

theorem noWsList_iff : ∀ xs, noWsList xs = true ↔ ∀ x ∈ xs, noWsJson x = true := by
  intro xs
  induction xs with
  | nil => simp [noWsList]
  | cons y ys ih =>
    rw [noWsList, Bool.and_eq_true, ih]
    constructor
    · rintro ⟨h1, h2⟩ x hx
      rcases List.mem_cons.mp hx with hx | hx
      · subst hx; exact h1
      · exact h2 x hx
    · intro h
      exact ⟨h y (by simp), fun x hx => h x (by simp [hx])⟩

theorem noWsFields_iff : ∀ fs, noWsFields fs = true ↔
    ∀ p ∈ fs, p.1.data.all (fun c => !isWsChar c) = true ∧ noWsJson p.2 = true := by
  intro fs
  induction fs with
  | nil => simp [noWsFields]
  | cons q qs ih =>
    obtain ⟨k, v⟩ := q
    rw [noWsFields, Bool.and_eq_true, Bool.and_eq_true, ih]
    constructor
    · rintro ⟨⟨h1, h2⟩, h3⟩ p hp
      rcases List.mem_cons.mp hp with hp | hp
      · subst hp; exact ⟨h1, h2⟩
      · exact h3 p hp
    · intro h
      exact ⟨⟨(h (k, v) (by simp)).1, (h (k, v) (by simp)).2⟩,
        fun p hp => h p (by simp [hp])⟩

theorem noWs_sortJsonKeys : ∀ v, noWsJson v = true → noWsJson (sortJsonKeys v) = true := by
  refine Json.mutualInd _ (fun h => h) (fun b h => h) (fun n h => h) (fun s h => h) ?_ ?_
  · intro xs ih h
    show noWsList (sortJsonList xs) = true
    rw [sortJsonList_eq_map, noWsList_iff]
    intro x hx
    obtain ⟨x0, hx0, hxe⟩ := List.mem_map.mp hx
    subst hxe
    exact ih x0 hx0 ((noWsList_iff xs).mp h x0 hx0)
  · intro fs ih h
    show noWsFields (List.insertionSort keyLE (sortJsonFields fs)) = true
    rw [noWsFields_iff]
    intro p hp
    have hp2 : p ∈ sortJsonFields fs := (List.mem_insertionSort keyLE).mp hp
    rw [sortJsonFields_eq_map] at hp2
    obtain ⟨q, hq, hqe⟩ := List.mem_map.mp hp2
    subst hqe
    have hmem := (noWsFields_iff fs).mp h q hq
    exact ⟨hmem.1, ih q hq hmem.2⟩

theorem ws_not_digit {c : Char} (h : isDigitChar c = true) : isWsChar c = false := by
  have hd : 48 ≤ c.toNat ∧ c.toNat ≤ 57 := by simpa [isDigitChar] using h
  cases hw : isWsChar c with
  | false => rfl
  | true =>
    exfalso
    simp only [isWsChar, Bool.or_eq_true, decide_eq_true_eq] at hw
    rcases hw with ((rfl | rfl) | rfl) | rfl <;> exact absurd hd (by decide)

theorem hexDigitChar_not_ws {n : Nat} (h : n < 16) : isWsChar (hexDigitChar n) = false := by
  interval_cases n <;> decide

theorem escapeChar_noWs {c : Char} (hc : isWsChar c = false) :
    ∀ e ∈ escapeChar c, isWsChar e = false := by
  intro e he
  by_cases h1 : c = '"'
  · subst h1
    rcases (by simpa [escapeChar] using he : e = '\\' ∨ e = '"') with rfl | rfl <;> decide
  by_cases h2 : c = '\\'
  · subst h2
    rcases (by simpa [escapeChar] using he : e = '\\' ∨ e = '\\') with rfl | rfl <;> decide
  by_cases h3 : c = '\x08'
  · subst h3
    rcases (by simpa [escapeChar] using he : e = '\\' ∨ e = 'b') with rfl | rfl <;> decide
  by_cases h4 : c = '\x09'
  · subst h4; simp [isWsChar] at hc
  by_cases h5 : c = '\x0a'
  · subst h5; simp [isWsChar] at hc
  by_cases h6 : c = '\x0c'
  · subst h6
    rcases (by simpa [escapeChar] using he : e = '\\' ∨ e = 'f') with rfl | rfl <;> decide
  by_cases h7 : c = '\x0d'
  · subst h7; simp [isWsChar] at hc
  by_cases h8 : c.toNat < 32
  · have hesc : escapeChar c =
        ['\\', 'u', '0', '0', hexDigitChar (c.toNat / 16), hexDigitChar (c.toNat % 16)] := by
      rw [escapeChar, if_neg h1, if_neg h2, if_neg h3, if_neg h4, if_neg h5, if_neg h6,
        if_neg h7, if_pos h8]
    rw [hesc] at he
    simp only [List.mem_cons, List.not_mem_nil, or_false] at he
    rcases he with rfl | rfl | rfl | rfl | rfl | rfl
    · decide
    · decide
    · decide
    · decide
    · exact hexDigitChar_not_ws (by omega)
    · exact hexDigitChar_not_ws (Nat.mod_lt _ (by omega))
  · have hesc : escapeChar c = [c] := by
      rw [escapeChar, if_neg h1, if_neg h2, if_neg h3, if_neg h4, if_neg h5, if_neg h6,
        if_neg h7, if_neg h8]
    rw [hesc] at he
    simp at he
    subst he
    exact hc

theorem escapeChars_noWs {s : List Char} (hs : ∀ c ∈ s, isWsChar c = false) :
    ∀ e ∈ escapeChars s, isWsChar e = false := by
  induction s with
  | nil => intro e he; simp [escapeChars] at he
  | cons c cs ih =>
    intro e he
    rw [escapeChars] at he
    rcases List.mem_append.mp he with h | h
    · exact escapeChar_noWs (hs c (by simp)) e h
    · exact ih (fun c2 hc2 => hs c2 (by simp [hc2])) e h

theorem quoteChars_noWs {s : List Char} (hs : ∀ c ∈ s, isWsChar c = false) :
    ∀ e ∈ quoteChars s, isWsChar e = false := by
  intro e he
  rw [quoteChars] at he
  rcases List.mem_cons.mp he with rfl | he2
  · decide
  rcases List.mem_append.mp he2 with he3 | he3
  · exact escapeChars_noWs hs e he3
  · simp only [List.mem_cons, List.not_mem_nil, or_false] at he3
    subst he3; decide

theorem intToChars_noWs (i : Int) : ∀ c ∈ intToChars i, isWsChar c = false := by
  intro c hc
  rw [intToChars] at hc
  by_cases hi : i < 0
  · rw [if_pos hi] at hc
    rcases List.mem_cons.mp hc with rfl | h
    · decide
    · rw [natToChars_eq] at h
      by_cases hz : i.natAbs = 0
      · rw [if_pos hz] at h; simp at h; subst h; decide
      · rw [if_neg hz] at h
        exact ws_not_digit (digitsOf_digits _ c h)
  · rw [if_neg hi, natToChars_eq] at hc
    by_cases hz : i.natAbs = 0
    · rw [if_pos hz] at hc; simp at hc; subst hc; decide
    · rw [if_neg hz] at hc
      exact ws_not_digit (digitsOf_digits _ c hc)

theorem stringifyElemsRest_noWs : ∀ xs : List Json,
    (∀ x ∈ xs, noWsJson x = true → ∀ c ∈ stringifyJson x, isWsChar c = false) →
    (∀ x ∈ xs, noWsJson x = true) →
    ∀ c ∈ stringifyElemsRest xs, isWsChar c = false := by
  intro xs
  induction xs with
  | nil => intro _ _ c hc; simp [stringifyElemsRest] at hc
  | cons y ys ih =>
    intro hx hmem c hc
    rw [stringifyElemsRest] at hc
    rcases List.mem_cons.mp hc with rfl | hc2
    · decide
    rcases List.mem_append.mp hc2 with hc3 | hc3
    · exact hx y (by simp) (hmem y (by simp)) c hc3
    · exact ih (fun x h2 => hx x (by simp [h2])) (fun x h2 => hmem x (by simp [h2])) c hc3

theorem stringifyFieldsRest_noWs : ∀ fs : List (String × Json),
    (∀ p ∈ fs, noWsJson p.2 = true → ∀ c ∈ stringifyJson p.2, isWsChar c = false) →
    (∀ p ∈ fs, p.1.data.all (fun c => !isWsChar c) = true ∧ noWsJson p.2 = true) →
    ∀ c ∈ stringifyFieldsRest fs, isWsChar c = false := by
  intro fs
  induction fs with
  | nil => intro _ _ c hc; simp [stringifyFieldsRest] at hc
  | cons g gs ih =>
    obtain ⟨k, v⟩ := g
    intro hx hmem c hc
    rw [stringifyFieldsRest] at hc
    rcases List.mem_cons.mp hc with rfl | hc2
    · decide
    rcases List.mem_append.mp hc2 with hc3 | hc3
    · rcases List.mem_append.mp hc3 with hc4 | hc4
      · refine quoteChars_noWs ?_ c hc4
        intro c2 hc5
        have h2 := (hmem (k, v) (by simp)).1
        simp only [List.all_eq_true] at h2
        simpa using h2 c2 hc5
      · rcases List.mem_cons.mp hc4 with rfl | hc5
        · decide
        · exact hx (k, v) (by simp) (hmem (k, v) (by simp)).2 c hc5
    · exact ih (fun p hp => hx p (by simp [hp])) (fun p hp => hmem p (by simp [hp])) c hc3

theorem stringifyJson_noWs : ∀ v, noWsJson v = true →
    ∀ c ∈ stringifyJson v, isWsChar c = false := by
  refine Json.mutualInd _ ?_ ?_ ?_ ?_ ?_ ?_
  · intro _ c hc
    simp only [stringifyJson, List.mem_cons, List.not_mem_nil, or_false] at hc
    rcases hc with rfl | rfl | rfl | rfl <;> decide
  · intro b _ c hc
    cases b
    · simp only [stringifyJson, List.mem_cons, List.not_mem_nil, or_false] at hc
      rcases hc with rfl | rfl | rfl | rfl | rfl <;> decide
    · simp only [stringifyJson, List.mem_cons, List.not_mem_nil, or_false] at hc
      rcases hc with rfl | rfl | rfl | rfl <;> decide
  · intro n _ c hc
    exact intToChars_noWs n c hc
  · intro s h c hc
    simp only [stringifyJson] at hc
    refine quoteChars_noWs ?_ c hc
    intro c2 hc2
    simp only [noWsJson, List.all_eq_true] at h
    simpa using h c2 hc2
  · intro xs ih h c hc
    have hmem := (noWsList_iff xs).mp h
    cases xs with
    | nil =>
      simp only [stringifyJson, List.mem_cons, List.not_mem_nil, or_false] at hc
      rcases hc with rfl | rfl <;> decide
    | cons x xs2 =>
      simp only [stringifyJson] at hc
      rcases List.mem_cons.mp hc with rfl | hc2
      · decide
      rcases List.mem_append.mp hc2 with hc3 | hc3
      · rcases List.mem_append.mp hc3 with hc4 | hc4
        · exact ih x (by simp) (hmem x (by simp)) c hc4
        · exact stringifyElemsRest_noWs xs2 (fun y hy => ih y (by simp [hy]))
            (fun y hy => hmem y (by simp [hy])) c hc4
      · simp only [List.mem_cons, List.not_mem_nil, or_false] at hc3
        subst hc3; decide
  · intro fs ih h c hc
    have hmem := (noWsFields_iff fs).mp h
    cases fs with
    | nil =>
      simp only [stringifyJson, List.mem_cons, List.not_mem_nil, or_false] at hc
      rcases hc with rfl | rfl <;> decide
    | cons g fs2 =>
      obtain ⟨k, v⟩ := g
      simp only [stringifyJson] at hc
      rcases List.mem_cons.mp hc with rfl | hc2
      · decide
      rcases List.mem_append.mp hc2 with hc3 | hc3
      · rcases List.mem_append.mp hc3 with hc4 | hc4
        · rcases List.mem_append.mp hc4 with hc5 | hc5
          · refine quoteChars_noWs ?_ c hc5
            intro c2 hc6
            have h2 := (hmem (k, v) (by simp)).1
            simp only [List.all_eq_true] at h2
            simpa using h2 c2 hc6
          · rcases List.mem_cons.mp hc5 with rfl | hc6
            · decide
            · exact ih (k, v) (by simp) (hmem (k, v) (by simp)).2 c hc6
        · exact stringifyFieldsRest_noWs fs2 (fun p hp => ih p (by simp [hp]))
            (fun p hp => hmem p (by simp [hp])) c hc4
      · simp only [List.mem_cons, List.not_mem_nil, or_false] at hc3
        subst hc3; decide

/-! ### Claim C2 -/

/-- C2: canonicalization (`createCompactJson`, i.e. compact stringify of
`sortJsonKeys`) is idempotent and insertion-order independent: parsing the
canonical output recovers exactly the sorted value with nothing left over,
canonicalizing an already-canonical value yields the same string,
structurally equivalent well-formed values (equal up to object-field
insertion order) canonicalize to byte-identical strings, object fields are
emitted in strictly ascending key order with the key multiset preserved
and keys unaltered, array element order is preserved, the output contains
no whitespace when the value's strings and keys contain none, and the two
concrete examples hold: `{z:1,a:2,m:3}` emits fields in order `a,m,z` and
`{a:1,b:2}` yields exactly `{"a":1,"b":2}`. -/
theorem claim_C2_canonicalization :
    (∀ v : Json,
      parseVal (jsize (sortJsonKeys v)) (createCompactJson v).data =
        some (sortJsonKeys v, []) ∧
      createCompactJson (sortJsonKeys v) = createCompactJson v) ∧
    (∀ a b : Json, JEquiv a b → wfJson a = true →
      createCompactJson a = createCompactJson b) ∧
    (∀ fs : List (String × Json), (fs.map Prod.fst).Nodup →
      ∃ gs, sortJsonKeys (.obj fs) = .obj gs ∧
        List.Pairwise keyLT gs ∧ (gs.map Prod.fst).Perm (fs.map Prod.fst)) ∧
    (∀ xs : List Json, sortJsonKeys (.arr xs) = .arr (xs.map sortJsonKeys)) ∧
    (∀ v : Json, noWsJson v = true →
      ∀ c ∈ (createCompactJson v).data, isWsChar c = false) ∧
    createCompactJson (.obj [("z", .num 1), ("a", .num 2), ("m", .num 3)]) =
      "\x7b\"a\":2,\"m\":3,\"z\":1\x7d" ∧
    createCompactJson (.obj [("a", .num 1), ("b", .num 2)]) = "\x7b\"a\":1,\"b\":2\x7d" := by
  refine ⟨?_, ?_, ?_, ?_, ?_, rfl, rfl⟩
  · intro v
    constructor
    · have h := (parse_stringify_all (jsize (sortJsonKeys v))).1 (sortJsonKeys v) []
        le_rfl (fun c hc => by simp at hc)
      rw [List.append_nil] at h
      exact h
    · unfold createCompactJson
      rw [sortJsonKeys_idem]
  · intro a b he hwf
    unfold createCompactJson
    rw [sortJsonKeys_equiv a b he hwf]
  · intro fs hnd
    have hpk : ((List.insertionSort keyLE (sortJsonFields fs)).map Prod.fst).Perm
        (fs.map Prod.fst) := by
      have h := (List.perm_insertionSort keyLE (sortJsonFields fs)).map Prod.fst
      rwa [sortJsonFields_keys] at h
    refine ⟨List.insertionSort keyLE (sortJsonFields fs), rfl, ?_, hpk⟩
    have hs : List.Sorted keyLE (List.insertionSort keyLE (sortJsonFields fs)) :=
      List.sorted_insertionSort keyLE _
    have hndk := (hpk.nodup_iff).mpr hnd
    have hpair := List.pairwise_map.mp hndk
    exact (hs.and hpair).imp (fun h => keyLT_of_keyLE_ne h.1 h.2)
  · intro xs
    show Json.arr (sortJsonList xs) = _
    rw [sortJsonList_eq_map]
  · intro v h c hc
    exact stringifyJson_noWs (sortJsonKeys v) (noWs_sortJsonKeys v h) c hc

/-- Concrete instantiation of C2: round-trip and order-independence at
`{z:1,a:2}`, whitespace-freedom at `{a:1}`. -/
theorem claim_C2_canonicalization_witness :
    parseVal (jsize (sortJsonKeys (Json.obj [("z", .num 1), ("a", .num 2)])))
        (createCompactJson (Json.obj [("z", .num 1), ("a", .num 2)])).data =
      some (sortJsonKeys (Json.obj [("z", .num 1), ("a", .num 2)]), []) ∧
    createCompactJson (Json.obj [("z", .num 1), ("a", .num 2)]) =
      createCompactJson (Json.obj [("a", .num 2), ("z", .num 1)]) ∧
    ∀ c ∈ (createCompactJson (Json.obj [("a", .num 1)])).data, isWsChar c = false := by
  refine ⟨(claim_C2_canonicalization.1 (Json.obj [("z", .num 1), ("a", .num 2)])).1, ?_, ?_⟩
  · exact claim_C2_canonicalization.2.1 _ _
      (JEquiv.obj rfl
        (List.Forall₂.cons (JEquiv.num 1) (List.Forall₂.cons (JEquiv.num 2) List.Forall₂.nil))
        (List.Perm.swap ("a", Json.num 2) ("z", Json.num 1) []))
      (by decide)
  · intro c hc
    exact claim_C2_canonicalization.2.2.2.2.1 (Json.obj [("a", .num 1)]) (by decide) c hc

/-! ### Byte-string encodings (Node `Buffer`, `bs58`)

Bytes are modeled as `Nat` values below 256. `Buffer.from(s, 'hex')`
decodes hex-digit pairs and stops at the first invalid pair (it never
throws); `bs58` uses the Bitcoin alphabet, one leading `'1'` per leading
zero byte; Node base64 decoding is modeled on the valid prefix of the
input (decoding stops at the first character outside the alphabet, such
as `'='` padding), in groups of four 6-bit values to three bytes. -/

/-- Hex digit value, both cases (`Buffer.from(·, 'hex')`). -/
def nodeHexVal? (c : Char) : Option Nat :=
  if 48 ≤ c.toNat ∧ c.toNat ≤ 57 then some (c.toNat - 48)
  else if 97 ≤ c.toNat ∧ c.toNat ≤ 102 then some (c.toNat - 87)
  else if 65 ≤ c.toNat ∧ c.toNat ≤ 70 then some (c.toNat - 55)
  else none

/-- `Buffer.from(s, 'hex')`: decode pairs of hex digits, stopping at the
first pair that is not two hex digits (Node truncates, it never throws). -/
def nodeHexDecode : List Char → List Nat
  | c1 :: c2 :: rest =>
    match nodeHexVal? c1, nodeHexVal? c2 with
    | some h, some l => (16 * h + l) :: nodeHexDecode rest
    | _, _ => []
  | _ => []

/-- The Bitcoin base-58 alphabet used by `bs58`. -/
def base58Alphabet : List Char := "123456789ABCDEFGHJKLMNPQRSTUVWXYZabcdefghijkmnopqrstuvwxyz".data

/-- Index of a character in a list, or `none`. -/
def charIndexAux : List Char → Char → Nat → Option Nat
  | [], _, _ => none
  | a :: rest, c, i => if a = c then some i else charIndexAux rest c (i + 1)

/-- Value of a base-58 digit character, or `none` when outside the alphabet. -/
def base58Val? (c : Char) : Option Nat := charIndexAux base58Alphabet c 0

/-- The base-58 test `/^[1-9A-HJ-NP-Za-km-z]+$/` of `generateKeypair`:
nonempty and all characters in the `bs58` alphabet. -/
def isBase58 (cs : List Char) : Bool :=
  !cs.isEmpty && cs.all (fun c => (base58Val? c).isSome)

/-- Big-endian base-256 digits of `n`, most significant first (accumulator
form, `fuel` bounds the number of divisions; empty for `n = 0`). -/
def natToBytesBEAux : Nat → Nat → List Nat → List Nat
  | 0, _, acc => acc
  | fuel + 1, n, acc => if n = 0 then acc else natToBytesBEAux fuel (n / 256) (n % 256 :: acc)

/-- `bs58.decode`: fails on any character outside the alphabet; otherwise
one zero byte per leading `'1'`, followed by the big-endian bytes of the
base-58 value of the string. -/
def bs58decode (cs : List Char) : Option (List Nat) :=
  if cs.all (fun c => (base58Val? c).isSome) then
    some (List.replicate (cs.takeWhile (fun c => c = '1')).length 0 ++
      natToBytesBEAux (2 * cs.length)
        (cs.foldl (fun acc c => acc * 58 + (base58Val? c).getD 0) 0) [])
  else none

/-- Base-58 digits of `n`, most significant first (accumulator form). -/
def natToB58Aux : Nat → Nat → List Char → List Char
  | 0, _, acc => acc
  | fuel + 1, n, acc =>
    if n = 0 then acc else natToB58Aux fuel (n / 58) (base58Alphabet.getD (n % 58) '1' :: acc)

/-- `bs58.encode`: one `'1'` per leading zero byte, then the base-58
digits of the big-endian value of the bytes. -/
def bs58encodeChars (bs : List Nat) : List Char :=
  List.replicate (bs.takeWhile (fun b => b = 0)).length '1' ++
    natToB58Aux (8 * bs.length) (bs.foldl (fun acc b => acc * 256 + b) 0) []

/-- The standard base64 alphabet. -/
def base64Alphabet : List Char :=
  "ABCDEFGHIJKLMNOPQRSTUVWXYZabcdefghijklmnopqrstuvwxyz0123456789+/".data

/-- Value of a base64 digit character, or `none` when outside the alphabet. -/
def base64Val? (c : Char) : Option Nat := charIndexAux base64Alphabet c 0

/-- Bytes of a sequence of 6-bit base64 values: each full group of four
values yields three bytes; a trailing group of two or three values yields
one or two bytes (as Node does for `=`-padded input). -/
def b64Groups : List Nat → List Nat
  | a :: b :: c :: d :: rest =>
    (a * 4 + b / 16) :: ((b % 16) * 16 + c / 4) :: ((c % 4) * 64 + d) :: b64Groups rest
  | [a, b] => [a * 4 + b / 16]
  | [a, b, c] => [a * 4 + b / 16, (b % 16) * 16 + c / 4]
  | _ => []

/-- `Buffer.from(s, 'base64')` on its valid prefix: decoding stops at the
first character outside the alphabet (e.g. `'='`) and never throws. -/
def nodeBase64Decode (cs : List Char) : List Nat :=
  b64Groups ((cs.takeWhile (fun c => (base64Val? c).isSome)).filterMap base64Val?)

/-- `Buffer.toString('base64')`: groups of three bytes to four digits,
with `=` padding for a trailing group of one or two bytes. -/
def nodeBase64Encode : List Nat → List Char
  | a :: b :: c :: rest =>
    base64Alphabet.getD (a / 4) 'A' :: base64Alphabet.getD ((a % 4) * 16 + b / 16) 'A' ::
      base64Alphabet.getD ((b % 16) * 4 + c / 64) 'A' :: base64Alphabet.getD (c % 64) 'A' ::
      nodeBase64Encode rest
  | [a, b] =>
    [base64Alphabet.getD (a / 4) 'A', base64Alphabet.getD ((a % 4) * 16 + b / 16) 'A',
      base64Alphabet.getD ((b % 16) * 4) 'A', '=']
  | [a] =>
    [base64Alphabet.getD (a / 4) 'A', base64Alphabet.getD ((a % 4) * 16) 'A', '=', '=']
  | [] => []

/-- `String.prototype.trim()` (whitespace at either end removed). -/
def trimChars (cs : List Char) : List Char :=
  ((cs.dropWhile isWsChar).reverse.dropWhile isWsChar).reverse

/-- Strip a leading `0x`, as `publicKey.startsWith('0x') ? publicKey.slice(2) : publicKey`. -/
def strip0x (cs : List Char) : List Char :=
  if cs.take 2 = ['0', 'x'] then cs.drop 2 else cs

/-- UTF-8 encoding of one character (`TextEncoder`). -/
def utf8EncodeChar (c : Char) : List Nat :=
  let n := c.toNat
  if n < 128 then [n]
  else if n < 2048 then [192 + n / 64, 128 + n % 64]
  else if n < 65536 then [224 + n / 4096, 128 + n / 64 % 64, 128 + n % 64]
  else [240 + n / 262144, 128 + n / 4096 % 64, 128 + n / 64 % 64, 128 + n % 64]

/-- UTF-8 bytes of a string (`new TextEncoder().encode(message)`). -/
def utf8Bytes (s : String) : List Nat := (s.data.map utf8EncodeChar).flatten

/-! ### Key resolution and signature primitives

`generateKeypair` (src/utils/tradeValidation.ts) resolves a string
private key by trying hex, then base58, then base64. Ed25519 itself is
kept abstract: `pub` stands for `ed25519.getPublicKey`, `sign` for
`ed25519.sign` and `verify` for `ed25519.verify`; theorems quantify over
them (with the Ed25519 fact that verification never succeeds on a
signature that is not exactly 64 bytes, where the library throws and the
caller catches). -/

/-- Error message of the final `throw` of `generateKeypair` (abbreviated). -/
def invalidKeyMsg : String := "Invalid private key format"

/-- The hex branch of `generateKeypair`: taken when the trimmed key has
length 128, or starts with `0x` and has length 130; succeeds when the
hex decode of the (de-prefixed) key has exactly 32 bytes. -/
def hexAttemptCode (cleanKey : List Char) : Option (List Nat) :=
  if cleanKey.length = 128 ∨ (cleanKey.take 2 = ['0', 'x'] ∧ cleanKey.length = 130) then
    let cleanHex := if cleanKey.take 2 = ['0', 'x'] then cleanKey.drop 2 else cleanKey
    let privateKeyBytes := nodeHexDecode cleanHex
    if privateKeyBytes.length = 32 then some privateKeyBytes else none
  else none

/-- The base58 branch of `generateKeypair`: taken when the key matches
`/^[1-9A-HJ-NP-Za-km-z]+$/`; a 64-byte decode keeps its first 32 bytes, a
32-byte decode is used whole, a longer decode keeps its first 32 bytes,
and a shorter one throws (caught, falling through to base64). -/
def b58AttemptCode (cleanKey : List Char) : Option (List Nat) :=
  if isBase58 cleanKey then
    match bs58decode cleanKey with
    | some decoded =>
      if decoded.length = 64 then
        if (decoded.take 32).length = 32 then some (decoded.take 32) else none
      else if decoded.length = 32 then
        if decoded.length = 32 then some decoded else none
      else if decoded.length > 32 then
        if (decoded.take 32).length = 32 then some (decoded.take 32) else none
      else none
    | none => none
  else none

/-- The base64 branch of `generateKeypair`: succeeds when the base64
decode has exactly 32 bytes. -/
def b64AttemptCode (cleanKey : List Char) : Option (List Nat) :=
  if (nodeBase64Decode cleanKey).length = 32 then some (nodeBase64Decode cleanKey) else none

/-- Model of `generateKeypair` on string input: trim, then try hex,
base58 and base64 in order, returning `(publicKey, privateKey)` from the
first branch that succeeds, else the invalid-format error. `pub` stands
for `ed25519.getPublicKey`. -/
def generateKeypairStr (pub : List Nat → List Nat) (privateKey : String) :
    Except String (List Nat × List Nat) :=
  let cleanKey := trimChars privateKey.data
  match hexAttemptCode cleanKey with
  | some sk => .ok (pub sk, sk)
  | none =>
    match b58AttemptCode cleanKey with
    | some sk => .ok (pub sk, sk)
    | none =>
      match b64AttemptCode cleanKey with
      | some sk => .ok (pub sk, sk)
      | none => .error invalidKeyMsg

/-- Hex resolution as the (amended) claim states it: accepted when the
trimmed input has fixed length 128 (or 130 with `0x`) and the hex decode
yields exactly 32 bytes. -/
def hexResolve (cs : List Char) : Option (List Nat) :=
  if cs.length = 128 ∨ (cs.take 2 = ['0', 'x'] ∧ cs.length = 130) then
    let bs := nodeHexDecode (if cs.take 2 = ['0', 'x'] then cs.drop 2 else cs)
    if bs.length = 32 then some bs else none
  else none

/-- Base-58 resolution as the (amended) claim states it: accepted when
the input matches the alphabet and the decode has at least 32 bytes, the
secret being the first 32 of them. -/
def b58Resolve (cs : List Char) : Option (List Nat) :=
  if isBase58 cs then
    match bs58decode cs with
    | some d => if 32 ≤ d.length then some (d.take 32) else none
    | none => none
  else none

/-- Base-64 resolution: accepted when the decode yields exactly 32 bytes. -/
def b64Resolve (cs : List Char) : Option (List Nat) :=
  if (nodeBase64Decode cs).length = 32 then some (nodeBase64Decode cs) else none

/-- Model of `signMessage`: UTF-8 encode the message, Ed25519-sign, and
return the *base58* encoding of the signature. -/
def signMessageModel (sign : List Nat → List Nat → List Nat)
    (message : String) (privateKey : List Nat) : String :=
  ⟨bs58encodeChars (sign (utf8Bytes message) privateKey)⟩

/-- Model of `verifySignature`: UTF-8 encode the message, *hex*-decode
the signature and the (possibly `0x`-prefixed) public key, and call
Ed25519 verify. -/
def verifySignatureModel (verify : List Nat → List Nat → List Nat → Bool)
    (message signature publicKey : String) : Bool :=
  verify (nodeHexDecode signature.data) (utf8Bytes message)
    (nodeHexDecode (strip0x publicKey.data))

theorem b58AttemptCode_eq (cs : List Char) : b58AttemptCode cs = b58Resolve cs := by
  unfold b58AttemptCode b58Resolve
  by_cases hb : isBase58 cs
  · rw [if_pos hb, if_pos hb]
    cases hd : bs58decode cs with
    | none => rfl
    | some d =>
      dsimp only
      by_cases h64 : d.length = 64
      · rw [if_pos h64, if_pos (by rw [List.length_take]; omega), if_pos (by omega)]
      · by_cases h32 : d.length = 32
        · rw [if_neg h64, if_pos h32, if_pos h32, if_pos (by omega),
            List.take_of_length_le (by omega)]
        · by_cases hgt : d.length > 32
          · rw [if_neg h64, if_neg h32, if_pos hgt, if_pos (by rw [List.length_take]; omega),
              if_pos (by omega)]
          · rw [if_neg h64, if_neg h32, if_neg hgt, if_neg (by omega)]
  · rw [if_neg hb, if_neg hb]

/-! ### Claims C3 and C4 -/

/-- C3 (amended): `generateKeypair` on a string key tries hex, then
base58, then base64, in that fixed order, returning the keypair from the
first branch that succeeds; the base58 branch is accepted exactly when
the decode has **at least** 32 bytes (not only exactly 32 or 64), the
secret being the first 32 decoded bytes; when no branch succeeds,
resolution fails with the invalid-key-format error. -/
theorem claim_C3_resolution_order :
    ∀ (pub : List Nat → List Nat) (key : String),
      generateKeypairStr pub key =
        match hexResolve (trimChars key.data) with
        | some sk => .ok (pub sk, sk)
        | none =>
          match b58Resolve (trimChars key.data) with
          | some sk => .ok (pub sk, sk)
          | none =>
            match b64Resolve (trimChars key.data) with
            | some sk => .ok (pub sk, sk)
            | none => .error invalidKeyMsg := by
  intro pub key
  unfold generateKeypairStr
  dsimp only
  rw [b58AttemptCode_eq]
  rfl

/-- Counterexample to C3 as originally stated: the 45-character base58
string `"2"*45` decodes to 33 bytes — neither 32 nor 64 — yet
`generateKeypair` accepts it, using the first 32 decoded bytes. -/
theorem claim_C3_counterexample :
    ∃ d : List Nat, bs58decode (List.replicate 45 '2') = some d ∧
      d.length = 33 ∧
      generateKeypairStr (fun sk => sk) ⟨List.replicate 45 '2'⟩ =
        .ok (d.take 32, d.take 32) := by
  refine ⟨[3, 108, 228, 66, 143, 165, 144, 197, 150, 243, 34, 176, 221, 214, 204, 147,
    241, 203, 62, 88, 183, 213, 136, 115, 182, 100, 87, 191, 112, 71, 220, 17, 247], ?_, ?_, ?_⟩
  · rfl
  · rfl
  · rfl

/-- C4: the hex/base64 key round-trip fails in this code. The hex branch
of `generateKeypair` is gated on a *128*-character input (a 64-byte
decode) but then requires the decode to have 32 bytes, so a 32-byte
secret given as its 64-character hex encoding (here all zeros, `"0"*64`)
is not resolved at all — it falls through hex (wrong length), base58
(`'0'` is outside the alphabet) and base64 (64 characters decode to 48
bytes) and throws — while the base64 re-encoding of the same secret
resolves successfully. The claimed round-trip equality of public keys is
therefore unsatisfiable: one side always errors. -/
theorem claim_C4_hex_base64_roundtrip :
    ∀ pub : List Nat → List Nat,
      generateKeypairStr pub ⟨List.replicate 64 '0'⟩ = .error invalidKeyMsg ∧
      generateKeypairStr pub ⟨nodeBase64Encode (List.replicate 32 0)⟩ =
        .ok (pub (List.replicate 32 0), List.replicate 32 0) := by
  intro pub
  exact ⟨rfl, rfl⟩

/-! ### Claim C5: encoding mismatch between signing and verification -/

theorem nodeHexDecode_length : ∀ cs : List Char, 2 * (nodeHexDecode cs).length ≤ cs.length := by
  have key : ∀ n cs, List.length cs ≤ n → 2 * (nodeHexDecode cs).length ≤ cs.length := by
    intro n
    induction n with
    | zero =>
      intro cs hl
      match cs with
      | [] => simp [nodeHexDecode]
      | c :: cs2 => simp at hl
    | succ n ih =>
      intro cs hl
      match cs with
      | [] => simp [nodeHexDecode]
      | [c] => simp [nodeHexDecode]
      | c1 :: c2 :: rest =>
        rw [nodeHexDecode]
        simp only [List.length_cons] at hl
        cases h1 : nodeHexVal? c1 with
        | none => simp
        | some h =>
          cases h2 : nodeHexVal? c2 with
          | none => simp
          | some l =>
            have hrest := ih rest (by omega)
            simp only [List.length_cons]
            omega
  intro cs
  exact key cs.length cs le_rfl

theorem natToB58Aux_length : ∀ fuel d n acc, n < 58 ^ d → d ≤ fuel →
    (natToB58Aux fuel n acc).length ≤ acc.length + d := by
  intro fuel
  induction fuel with
  | zero =>
    intro d n acc _ _
    rw [natToB58Aux]
    omega
  | succ fuel ih =>
    intro d n acc hn hd
    rw [natToB58Aux]
    by_cases hz : n = 0
    · rw [if_pos hz]; omega
    · rw [if_neg hz]
      rcases Nat.eq_zero_or_pos d with rfl | hd1
    -- `d = 0` forces `n = 0`
      · exact absurd (Nat.lt_one_iff.mp (by simpa using hn)) hz
      · have hdiv : n / 58 < 58 ^ (d - 1) := by
          rw [Nat.div_lt_iff_lt_mul (by norm_num)]
          calc n < 58 ^ d := hn
            _ = 58 ^ (d - 1) * 58 := by
                rw [← pow_succ]
                congr 1
                omega
        have hrec := ih (d - 1) (n / 58) (base58Alphabet.getD (n % 58) '1' :: acc)
          hdiv (by omega)
        simp only [List.length_cons] at hrec
        omega

theorem byteFoldl_lt : ∀ bs : List Nat, (∀ b ∈ bs, b < 256) → ∀ acc K, acc < K →
    bs.foldl (fun a b => a * 256 + b) acc < K * 256 ^ bs.length := by
  intro bs
  induction bs with
  | nil =>
    intro _ acc K h
    simpa using h
  | cons b bs2 ih =>
    intro hb acc K hK
    rw [List.foldl_cons]
    have h1 : acc * 256 + b < K * 256 := by
      have hb1 : b < 256 := hb b (by simp)
      nlinarith
    have h2 := ih (fun x hx => hb x (by simp [hx])) (acc * 256 + b) (K * 256) h1
    rw [List.length_cons, pow_succ]
    calc List.foldl (fun a b => a * 256 + b) (acc * 256 + b) bs2
        < K * 256 * 256 ^ bs2.length := h2
      _ = K * (256 ^ bs2.length * 256) := by ring

theorem foldl_zeros : ∀ t : List Nat, (∀ b ∈ t, b = 0) →
    t.foldl (fun a b => a * 256 + b) 0 = 0 := by
  intro t
  induction t with
  | nil => intro _; rfl
  | cons b t2 ih =>
    intro hb
    rw [List.foldl_cons]
    have hb0 : b = 0 := hb b (by simp)
    rw [hb0]
    exact ih (fun x hx => hb x (by simp [hx]))

/-- The base58 encoding of a 64-byte array has at most 127 characters
(at most 88 when there is no leading zero byte). -/
theorem bs58encodeChars_length_le {bs : List Nat} (hlen : bs.length = 64)
    (hb : ∀ b ∈ bs, b < 256) : (bs58encodeChars bs).length ≤ 127 := by
  unfold bs58encodeChars
  rw [List.length_append, List.length_replicate]
  have hsplit := List.takeWhile_append_dropWhile (p := fun b => decide (b = 0)) (l := bs)
  have hlensum : (bs.takeWhile (fun b => decide (b = 0))).length +
      (bs.dropWhile (fun b => decide (b = 0))).length = 64 := by
    rw [← List.length_append, hsplit, hlen]
  have hval : bs.foldl (fun a b => a * 256 + b) 0 =
      (bs.dropWhile (fun b => decide (b = 0))).foldl (fun a b => a * 256 + b) 0 := by
    conv_lhs => rw [← hsplit]
    rw [List.foldl_append]
    congr 1
    refine foldl_zeros _ (fun x hx => ?_)
    have hq := List.mem_takeWhile_imp hx
    simpa using hq
  have hdropmem : ∀ b ∈ bs.dropWhile (fun b => decide (b = 0)), b < 256 :=
    fun b hb2 => hb b (List.dropWhile_subset _ hb2)
  have hNlt : bs.foldl (fun a b => a * 256 + b) 0 <
      256 ^ (bs.dropWhile (fun b => decide (b = 0))).length := by
    rw [hval]
    have := byteFoldl_lt _ hdropmem 0 1 (by omega)
    simpa using this
  set z := (bs.takeWhile (fun b => decide (b = 0))).length with hz
  rcases Nat.eq_zero_or_pos z with hz0 | hz1
  · -- no leading zero byte: the value is below `256^64 ≤ 58^88`
    have hN88 : bs.foldl (fun a b => a * 256 + b) 0 < 58 ^ 88 := by
      calc bs.foldl (fun a b => a * 256 + b) 0
          < 256 ^ (bs.dropWhile (fun b => decide (b = 0))).length := hNlt
        _ ≤ 256 ^ 64 := by
            apply Nat.pow_le_pow_right (by norm_num)
            omega
        _ ≤ 58 ^ 88 := by norm_num
    have := natToB58Aux_length (8 * bs.length) 88 _ [] hN88 (by rw [hlen]; omega)
    simp only [List.length_nil] at this
    omega
  · -- at least one leading zero byte: `z + 2*(64-z) ≤ 127`
    have hN2 : bs.foldl (fun a b => a * 256 + b) 0 < 58 ^ (2 * (64 - z)) := by
      calc bs.foldl (fun a b => a * 256 + b) 0
          < 256 ^ (bs.dropWhile (fun b => decide (b = 0))).length := hNlt
        _ ≤ (58 ^ 2) ^ (bs.dropWhile (fun b => decide (b = 0))).length :=
            Nat.pow_le_pow_left (by norm_num) _
        _ = 58 ^ (2 * (64 - z)) := by
            rw [← pow_mul]
            congr 1
            omega
    have := natToB58Aux_length (8 * bs.length) (2 * (64 - z)) _ [] hN2 (by rw [hlen]; omega)
    simp only [List.length_nil] at this
    omega

/-- C5: the sign/verify round-trip always fails in this code.
`signMessage` returns the *base58* encoding of the 64-byte Ed25519
signature (at most 127 characters), but `verifySignature` *hex*-decodes
the signature string, producing at most 63 bytes; Ed25519 verification of
a signature that is not exactly 64 bytes cannot succeed (the library
throws, caught as `false`), so for every message, key and public key the
claimed round-trip returns `false` instead of `true`. `sign` and `verify`
stand for `ed25519.sign` / `ed25519.verify`. -/
theorem claim_C5_sign_verify_roundtrip :
    ∀ (sign : List Nat → List Nat → List Nat) (verify : List Nat → List Nat → List Nat → Bool),
      (∀ s m p, s.length ≠ 64 → verify s m p = false) →
      ∀ (message : String) (privateKey : List Nat) (publicKey : String),
        (sign (utf8Bytes message) privateKey).length = 64 →
        (∀ b ∈ sign (utf8Bytes message) privateKey, b < 256) →
        verifySignatureModel verify message (signMessageModel sign message privateKey)
          publicKey = false := by
  intro sign verify hverify message privateKey publicKey hlen hbytes
  unfold verifySignatureModel signMessageModel
  apply hverify
  show (nodeHexDecode (bs58encodeChars (sign (utf8Bytes message) privateKey))).length ≠ 64
  have h1 := nodeHexDecode_length (bs58encodeChars (sign (utf8Bytes message) privateKey))
  have h2 := bs58encodeChars_length_le hlen hbytes
  omega

/-- Concrete instantiation of C5: with the all-zero 64-byte signature the
base58 encoding is 64 `'1'`s and verification sees a 32-byte hex decode,
hence `false`. -/
theorem claim_C5_sign_verify_roundtrip_witness :
    verifySignatureModel (fun s _ _ => decide (s.length = 64)) "m"
      (signMessageModel (fun _ _ => List.replicate 64 0) "m" []) "" = false :=
  claim_C5_sign_verify_roundtrip (fun _ _ => List.replicate 64 0)
    (fun s _ _ => decide (s.length = 64))
    (fun s m p h => by simp [h]) "m" [] ""
    (by simp)
    (fun b hb => by rw [List.eq_of_mem_replicate hb]; omega)

/-! ### The signing pipeline (`buildSignedRequest`, `SignClient.makeSignedRequest`)

The payload is a JS object in insertion order, modeled as a field list.
`Date.now()` is a parameter `ts`. Ed25519 stays abstract (`pub`, `sign`). -/

/-- Result of `buildSignedRequest` (the `SignedRequest` record of the
source, before flattening). -/
structure SignedRequest where
  account : String
  signature : String
  operation : String
  data : List (String × Json)
  timestamp : Int
  expiry_window : Option Int

/-- Account-address resolution of `buildSignedRequest`: a `0x`-prefixed
64-digit hex key or a bare 64-character key is hex-decoded and re-encoded
in base58; anything else is used as-is (assumed base58). -/
def resolveAccountAddress (accountPublicKey : String) : String :=
  if accountPublicKey.data.take 2 = ['0', 'x'] then
    let hexKey := accountPublicKey.data.drop 2
    if hexKey.length = 64 then ⟨bs58encodeChars (nodeHexDecode hexKey)⟩
    else accountPublicKey
  else if accountPublicKey.data.length = 64 then
    ⟨bs58encodeChars (nodeHexDecode accountPublicKey.data)⟩
  else accountPublicKey

/-- The optional `expiry_window` field, present exactly when a window was
given (`...(header.expiry_window !== undefined && { expiry_window })`). -/
def expiryField (w : Option Int) : List (String × Json) :=
  match w with
  | some x => [("expiry_window", .num x)]
  | none => []

/-- The signed message structure of `buildSignedRequest`:
`{ type, timestamp, expiry_window?, data: { ...payload } }` — the payload is
nested under `data`. -/
def signedMessagePayload (operation : String) (ts : Int) (w : Option Int)
    (data : List (String × Json)) : Json :=
  .obj ([("type", .str operation), ("timestamp", .num ts)] ++ expiryField w ++
    [("data", .obj data)])

/-- Model of `buildSignedRequest`: resolve the key, resolve the account
address (from the given public key, or base58 of the derived public key),
sign the canonical compact JSON of the nested message, and return the
`SignedRequest` record (payload kept under `data`, not flattened). -/
def buildSignedRequestModel (pub : List Nat → List Nat)
    (sign : List Nat → List Nat → List Nat) (operation : String)
    (data : List (String × Json)) (privateKey : String)
    (accountPublicKey : Option String) (expiryWindow : Option Int) (ts : Int) :
    Except String SignedRequest :=
  match generateKeypairStr pub privateKey with
  | .error e => .error e
  | .ok (pubKey, privateKeyBytes) =>
    let accountAddress :=
      match accountPublicKey with
      | some apk => resolveAccountAddress apk
      | none => (⟨bs58encodeChars pubKey⟩ : String)
    let compactJson := createCompactJson (signedMessagePayload operation ts expiryWindow data)
    let signature := signMessageModel sign compactJson privateKeyBytes
    .ok { account := accountAddress, signature := signature, operation := operation,
          data := data, timestamp := ts, expiry_window := expiryWindow }

/-- The flattened request body of `SignClient.makeSignedRequest`:
`{ account, signature, timestamp, expiry_window?, ...data }` — the payload
fields are spread at top level, `operation` and the `data` wrapper are
dropped. -/
def makeSignedRequestBody (req : SignedRequest) (data : List (String × Json)) :
    List (String × Json) :=
  [("account", .str req.account), ("signature", .str req.signature),
    ("timestamp", .num req.timestamp)] ++ expiryField req.expiry_window ++ data

/-- Model of `SignClient.makeSignedRequest`: always passes
`defaultExpiryWindow` (the configured `expiryWindow`, or 5000) to
`buildSignedRequest`, then flattens the result into the transmitted body.
Returns the signed request and the body handed to `post`. -/
def makeSignedRequestModel (pub : List Nat → List Nat)
    (sign : List Nat → List Nat → List Nat) (cfgExpiryWindow : Option Int)
    (operation : String) (data : List (String × Json)) (privateKey : String)
    (accountPublicKey : Option String) (ts : Int) :
    Except String (SignedRequest × List (String × Json)) :=
  match buildSignedRequestModel pub sign operation data privateKey accountPublicKey
      (some (cfgExpiryWindow.getD 5000)) ts with
  | .error e => .error e
  | .ok req => .ok (req, makeSignedRequestBody req data)

/-- What `BaseClient.post` transmits: `JSON.stringify(body)` of the
flattened body as-is — no key sorting, no canonicalization. -/
def transmittedBytes (body : List (String × Json)) : String := ⟨stringifyJson (.obj body)⟩

/-! ### Claims C1 and C10 -/

/-- C1: the signed/transmitted asymmetry. Whenever `buildSignedRequest`
succeeds, the signature is `signMessage` of the canonical compact JSON of
`{ type: operation, timestamp, expiry_window?, data: payload }` (payload
nested under `data`, signed with the resolved secret key), while the body
that `makeSignedRequest` transmits is
`{ account, signature, timestamp, expiry_window?, ...payload }` with the
payload fields flattened to the top level; the flattened body is
stringified as-is (`transmittedBytes`), not canonicalized or re-signed. -/
theorem claim_C1_signed_vs_transmitted :
    ∀ (pub : List Nat → List Nat) (sign : List Nat → List Nat → List Nat)
      (operation : String) (data : List (String × Json)) (privateKey : String)
      (apk : Option String) (w : Option Int) (ts : Int) (req : SignedRequest),
      buildSignedRequestModel pub sign operation data privateKey apk w ts = .ok req →
      ∃ pk sk, generateKeypairStr pub privateKey = .ok (pk, sk) ∧
        req.signature = signMessageModel sign
          (createCompactJson (signedMessagePayload operation ts w data)) sk ∧
        req.data = data ∧ req.timestamp = ts ∧ req.expiry_window = w ∧
        makeSignedRequestBody req data =
          [("account", .str req.account), ("signature", .str req.signature),
            ("timestamp", .num ts)] ++ expiryField w ++ data ∧
        transmittedBytes (makeSignedRequestBody req data) =
          ⟨stringifyJson (.obj (makeSignedRequestBody req data))⟩ := by
  intro pub sign operation data privateKey apk w ts req h
  unfold buildSignedRequestModel at h
  cases hg : generateKeypairStr pub privateKey with
  | error e =>
    rw [hg] at h
    exact absurd h (by simp)
  | ok p =>
    obtain ⟨pk, sk⟩ := p
    rw [hg] at h
    dsimp only at h
    injection h with h2
    subst h2
    exact ⟨pk, sk, rfl, rfl, rfl, rfl, rfl, rfl, rfl⟩

/-- C10: every request built through `makeSignedRequest` carries an
`expiry_window`, equal to the configured `expiryWindow` or 5000 when none
is configured, and the `timestamp` and `expiry_window` put in the
transmitted body are the very values embedded in the canonical message
that was signed. -/
theorem claim_C10_expiry_window_always_sent :
    ∀ (pub : List Nat → List Nat) (sign : List Nat → List Nat → List Nat)
      (cfgW : Option Int) (operation : String) (data : List (String × Json))
      (privateKey : String) (apk : Option String) (ts : Int)
      (req : SignedRequest) (body : List (String × Json)),
      makeSignedRequestModel pub sign cfgW operation data privateKey apk ts = .ok (req, body) →
      req.expiry_window = some (cfgW.getD 5000) ∧
      ("expiry_window", Json.num (cfgW.getD 5000)) ∈ body ∧
      ("timestamp", Json.num ts) ∈ body ∧
      req.timestamp = ts ∧
      ∃ pk sk, generateKeypairStr pub privateKey = .ok (pk, sk) ∧
        req.signature = signMessageModel sign
          (createCompactJson
            (signedMessagePayload operation ts (some (cfgW.getD 5000)) data)) sk := by
  intro pub sign cfgW operation data privateKey apk ts req body h
  unfold makeSignedRequestModel buildSignedRequestModel at h
  cases hg : generateKeypairStr pub privateKey with
  | error e =>
    rw [hg] at h
    exact absurd h (by simp)
  | ok p =>
    obtain ⟨pk, sk⟩ := p
    rw [hg] at h
    dsimp only at h
    injection h with h2
    have h3 := congrArg Prod.fst h2
    have h4 := congrArg Prod.snd h2
    dsimp only at h3 h4
    subst h3
    subst h4
    refine ⟨rfl, ?_, ?_, rfl, pk, sk, rfl, rfl⟩
    · simp [makeSignedRequestBody, expiryField]
    · simp [makeSignedRequestBody]

/-- A concrete signed request: all-zero abstract Ed25519 primitives, the
base64 key for 32 zero bytes, payload `{ amount: "1" }`, timestamp 100,
window 5000. Its account is 32 `'1'`s (base58 of 32 zero bytes) and its
signature 64 `'1'`s (base58 of the 64 zero signature bytes). -/
def sampleSignedRequest : SignedRequest :=
  { account := ⟨List.replicate 32 '1'⟩, signature := ⟨List.replicate 64 '1'⟩,
    operation := "create_order", data := [("amount", Json.str "1")],
    timestamp := 100, expiry_window := some 5000 }

/-- Concrete instantiation of C1, plus the check that for this request
the transmitted body serialization differs from the canonicalized one
(the body is sent unsorted: `expiry_window` after `timestamp`). -/
theorem claim_C1_signed_vs_transmitted_witness :
    (∃ pk sk,
      generateKeypairStr (fun _ => List.replicate 32 0)
          ⟨nodeBase64Encode (List.replicate 32 0)⟩ = .ok (pk, sk) ∧
      sampleSignedRequest.signature = signMessageModel (fun _ _ => List.replicate 64 0)
        (createCompactJson (signedMessagePayload "create_order" 100 (some 5000)
          [("amount", Json.str "1")])) sk ∧
      sampleSignedRequest.data = [("amount", Json.str "1")] ∧
      sampleSignedRequest.timestamp = 100 ∧
      sampleSignedRequest.expiry_window = some 5000 ∧
      makeSignedRequestBody sampleSignedRequest [("amount", Json.str "1")] =
        [("account", .str sampleSignedRequest.account),
          ("signature", .str sampleSignedRequest.signature), ("timestamp", .num 100)] ++
          expiryField (some 5000) ++ [("amount", Json.str "1")] ∧
      transmittedBytes (makeSignedRequestBody sampleSignedRequest [("amount", Json.str "1")]) =
        ⟨stringifyJson
          (.obj (makeSignedRequestBody sampleSignedRequest [("amount", Json.str "1")]))⟩) ∧
    transmittedBytes (makeSignedRequestBody sampleSignedRequest [("amount", Json.str "1")]) ≠
      createCompactJson
        (.obj (makeSignedRequestBody sampleSignedRequest [("amount", Json.str "1")])) := by
  constructor
  · exact claim_C1_signed_vs_transmitted (fun _ => List.replicate 32 0)
      (fun _ _ => List.replicate 64 0) "create_order" [("amount", Json.str "1")]
      ⟨nodeBase64Encode (List.replicate 32 0)⟩ none (some 5000) 100
      sampleSignedRequest rfl
  · decide

/-- Concrete instantiation of C10 with no configured window: the default
5000 is used everywhere. -/
theorem claim_C10_expiry_window_always_sent_witness :
    sampleSignedRequest.expiry_window = some 5000 ∧
    ("expiry_window", Json.num 5000) ∈
      makeSignedRequestBody sampleSignedRequest [("amount", Json.str "1")] ∧
    ("timestamp", Json.num 100) ∈
      makeSignedRequestBody sampleSignedRequest [("amount", Json.str "1")] ∧
    sampleSignedRequest.timestamp = 100 ∧
    ∃ pk sk,
      generateKeypairStr (fun _ => List.replicate 32 0)
          ⟨nodeBase64Encode (List.replicate 32 0)⟩ = .ok (pk, sk) ∧
      sampleSignedRequest.signature = signMessageModel (fun _ _ => List.replicate 64 0)
        (createCompactJson (signedMessagePayload "create_order" 100 (some 5000)
          [("amount", Json.str "1")])) sk :=
  claim_C10_expiry_window_always_sent (fun _ => List.replicate 32 0)
    (fun _ _ => List.replicate 64 0) none "create_order" [("amount", Json.str "1")]
    ⟨nodeBase64Encode (List.replicate 32 0)⟩ none 100
    sampleSignedRequest (makeSignedRequestBody sampleSignedRequest [("amount", Json.str "1")])
    rfl

/-! ### HTTP retry loop (`BaseClient.get` / `BaseClient.post`)

The loop `for (attempt = 0; attempt <= retryAttempts; attempt++)` is
modeled with explicit fuel `retryAttempts + 1 - attempt`. A fetch is
modeled by its response: `status attempt` and the `Retry-After` header
`hdr attempt` (in seconds). Network failures and timeouts are outside
the scope of the claims and are not modeled. The model records the
outcome, the number of fetches performed, and every `sleep` duration in
order: the pre-attempt exponential backoff `retryDelay * 2^(attempt-1)`
for attempts after the first, and the extra sleep in the
`RateLimitError` catch (`error.retryAfter || retryDelay * 2^attempt`,
where a zero hint is falsy). -/

/-- A typed error thrown by the retry loop: `APIError` with its status,
or `RateLimitError` with its `retryAfter` milliseconds. -/
inductive HErr where
  | api (status : Nat)
  | rateLimit (retryAfterMs : Nat)
deriving DecidableEq, Repr

/-- Outcome, fetch count and chronological sleep trace of one `get`. -/
structure RunResult where
  outcome : Except HErr Unit
  attempts : Nat
  sleeps : List Nat
deriving Repr

/-- `retryAfterMs` computed when a 429 response is turned into a
`RateLimitError` at attempt `j`: the `Retry-After` header times 1000, or
the exponential fallback `retryDelay * 2^j`. -/
def rateHintMs (D : Nat) (hdr : Nat → Option Nat) (j : Nat) : Nat :=
  match hdr j with
  | some r => r * 1000
  | none => D * 2 ^ j

/-- The sleep performed in the `RateLimitError` catch at attempt `j`:
`error.retryAfter || retryDelay * 2^j` (a zero hint is falsy in JS). -/
def rateCatchSleep (D : Nat) (hdr : Nat → Option Nat) (j : Nat) : Nat :=
  if rateHintMs D hdr j ≠ 0 then rateHintMs D hdr j else D * 2 ^ j

/-- One pass of the retry loop from attempt `k` with `fuel = N + 1 - k`
iterations left (`N` = `retryAttempts`, `D` = `retryDelay`): sleep the
backoff when `k > 0`; a 2xx response returns; a 429 response sleeps the
hint and retries while `k < N`, else surfaces `RateLimitError`; a 5xx
response retries while `k < N`, else surfaces `APIError`; any other
non-2xx response surfaces `APIError` at once. -/
def runGetAux (N D : Nat) (status : Nat → Nat) (hdr : Nat → Option Nat) :
    Nat → Nat → RunResult
  | 0, _ => ⟨.error (.api 0), 0, []⟩
  | fuel + 1, k =>
    let pre : List Nat := if k = 0 then [] else [D * 2 ^ (k - 1)]
    let s := status k
    if s = 429 then
      if k < N then
        let rest := runGetAux N D status hdr fuel (k + 1)
        ⟨rest.outcome, rest.attempts + 1, pre ++ rateCatchSleep D hdr k :: rest.sleeps⟩
      else ⟨.error (.rateLimit (rateHintMs D hdr k)), 1, pre⟩
    else if 200 ≤ s ∧ s < 300 then ⟨.ok (), 1, pre⟩
    else if 500 ≤ s then
      if k < N then
        let rest := runGetAux N D status hdr fuel (k + 1)
        ⟨rest.outcome, rest.attempts + 1, pre ++ rest.sleeps⟩
      else ⟨.error (.api s), 1, pre⟩
    else ⟨.error (.api s), 1, pre⟩

/-- The retry loop of `BaseClient.get`/`post`: attempts `0` through
`retryAttempts`. -/
def runGet (N D : Nat) (status : Nat → Nat) (hdr : Nat → Option Nat) : RunResult :=
  runGetAux N D status hdr (N + 1) 0

/-- `this.retryAttempts = config?.retryAttempts ?? 3`. -/
def defaultRetryAttempts : Nat := 3

/-- `this.retryDelay = config?.retryDelay ?? 1000`. -/
def defaultRetryDelay : Nat := 1000

/-- Expected backoff presleep trace of attempts `k, k+1, ...` (`fuel`
of them), each contributing `retryDelay * 2^(attempt-1)`. -/
def trace500 (D k fuel : Nat) : List Nat :=
  (List.range fuel).map (fun i => D * 2 ^ (k + i - 1))

/-- Expected sleep trace of an all-429 run over attempts `k, ...` (`fuel`
of them): each attempt sleeps its backoff presleep, then the rate-limit
catch sleep when another attempt follows. -/
def trace429 (N D : Nat) (hdr : Nat → Option Nat) (k fuel : Nat) : List Nat :=
  ((List.range fuel).map (fun i =>
    D * 2 ^ (k + i - 1) ::
      (if k + i < N then [rateCatchSleep D hdr (k + i)] else []))).flatten

theorem trace500_succ (D k fuel : Nat) :
    trace500 D k (fuel + 1) = D * 2 ^ (k - 1) :: trace500 D (k + 1) fuel := by
  unfold trace500
  rw [List.range_succ_eq_map, List.map_cons, List.map_map]
  have hmap : (List.range fuel).map ((fun i => D * 2 ^ (k + i - 1)) ∘ Nat.succ) =
      (List.range fuel).map (fun i => D * 2 ^ (k + 1 + i - 1)) := by
    apply List.map_congr_left
    intro i _
    simp only [Function.comp_apply, Nat.succ_eq_add_one]
    have h3 : k + (i + 1) = k + 1 + i := by omega
    rw [h3]
  rw [hmap]
  simp

theorem trace429_succ (N D : Nat) (hdr : Nat → Option Nat) (k fuel : Nat) :
    trace429 N D hdr k (fuel + 1) =
      (D * 2 ^ (k - 1) :: (if k < N then [rateCatchSleep D hdr k] else [])) ++
        trace429 N D hdr (k + 1) fuel := by
  unfold trace429
  rw [List.range_succ_eq_map, List.map_cons, List.map_map, List.flatten_cons]
  have hmap : (List.range fuel).map ((fun i =>
      D * 2 ^ (k + i - 1) ::
        (if k + i < N then [rateCatchSleep D hdr (k + i)] else [])) ∘ Nat.succ) =
      (List.range fuel).map (fun i =>
        D * 2 ^ (k + 1 + i - 1) ::
          (if k + 1 + i < N then [rateCatchSleep D hdr (k + 1 + i)] else [])) := by
    apply List.map_congr_left
    intro i _
    simp only [Function.comp_apply, Nat.succ_eq_add_one]
    have h3 : k + (i + 1) = k + 1 + i := by omega
    rw [h3]
  rw [hmap]
  simp

theorem runGetAux_all500 : ∀ (fuel N D : Nat) (status : Nat → Nat) (hdr : Nat → Option Nat)
    (k : Nat), (∀ j, status j = 500) → k + fuel = N + 1 → 1 ≤ k → k ≤ N →
    runGetAux N D status hdr fuel k = ⟨.error (.api 500), fuel, trace500 D k fuel⟩ := by
  intro fuel
  induction fuel with
  | zero => intro N D status hdr k _ hk _ hkN; omega
  | succ fuel ih =>
    intro N D status hdr k h500 hk hk1 hkN
    rw [runGetAux]
    simp only [h500 k]
    rw [if_neg (by omega : ¬ k = 0), if_neg (by decide : ¬ (500 : Nat) = 429),
      if_neg (by decide : ¬ (200 ≤ (500 : Nat) ∧ 500 < 300)),
      if_pos (by decide : 500 ≤ (500 : Nat))]
    by_cases hlast : k < N
    · rw [if_pos hlast, ih N D status hdr (k + 1) h500 (by omega) (by omega) (by omega)]
      rw [trace500_succ]
      rfl
    · rw [if_neg hlast]
      have hfz : fuel = 0 := by omega
      subst hfz
      unfold trace500
      rw [show List.range 1 = [0] from rfl]
      simp

theorem runGetAux_all429 : ∀ (fuel N D : Nat) (status : Nat → Nat) (hdr : Nat → Option Nat)
    (k : Nat), (∀ j, status j = 429) → k + fuel = N + 1 → 1 ≤ k → k ≤ N →
    runGetAux N D status hdr fuel k =
      ⟨.error (.rateLimit (rateHintMs D hdr N)), fuel, trace429 N D hdr k fuel⟩ := by
  intro fuel
  induction fuel with
  | zero => intro N D status hdr k _ hk _ hkN; omega
  | succ fuel ih =>
    intro N D status hdr k h429 hk hk1 hkN
    rw [runGetAux]
    simp only [h429 k, if_true]
    rw [if_neg (by omega : ¬ k = 0)]
    by_cases hlast : k < N
    · rw [if_pos hlast, ih N D status hdr (k + 1) h429 (by omega) (by omega) (by omega)]
      rw [trace429_succ, if_pos hlast]
      rfl
    · rw [if_neg hlast]
      have hfz : fuel = 0 := by omega
      subst hfz
      have hkn : k = N := by omega
      subst hkn
      unfold trace429
      rw [show List.range 1 = [0] from rfl]
      simp only [List.map_cons, List.map_nil, List.flatten_cons, List.flatten_nil,
        Nat.add_zero, List.append_nil]
      rw [if_neg hlast]

theorem runGet_all500 (N D : Nat) (status : Nat → Nat) (hdr : Nat → Option Nat)
    (h500 : ∀ j, status j = 500) :
    runGet N D status hdr =
      ⟨.error (.api 500), N + 1, (List.range N).map (fun i => D * 2 ^ i)⟩ := by
  unfold runGet
  rw [runGetAux]
  simp only [h500 0, if_true]
  rw [if_neg (by decide : ¬ (500 : Nat) = 429),
    if_neg (by decide : ¬ (200 ≤ (500 : Nat) ∧ 500 < 300)),
    if_pos (by decide : 500 ≤ (500 : Nat))]
  by_cases hN : 0 < N
  · rw [if_pos hN, runGetAux_all500 N N D status hdr 1 h500 (by omega) le_rfl (by omega)]
    refine congrArg (RunResult.mk _ _) ?_
    rw [List.nil_append]
    unfold trace500
    apply List.map_congr_left
    intro i _
    have h3 : 1 + i - 1 = i := by omega
    rw [h3]
  · rw [if_neg hN]
    have : N = 0 := by omega
    subst this
    simp

theorem pair429 : ∀ (m N D : Nat) (hdr : Nat → Option Nat) (k : Nat), k + m + 1 = N →
    rateCatchSleep D hdr k :: trace429 N D hdr (k + 1) (m + 1) =
      ((List.range (m + 1)).map
        (fun j => [rateCatchSleep D hdr (k + j), D * 2 ^ (k + j)])).flatten := by
  intro m
  induction m with
  | zero =>
    intro N D hdr k hk
    unfold trace429
    rw [show List.range 1 = [0] from rfl]
    simp only [List.map_cons, List.map_nil, List.flatten_cons, List.flatten_nil]
    rw [if_neg (by omega : ¬ k + 1 + 0 < N)]
    simp
  | succ m ih =>
    intro N D hdr k hk
    rw [trace429_succ, if_pos (by omega : k + 1 < N)]
    have hih := ih N D hdr (k + 1) (by omega)
    rw [List.range_succ_eq_map, List.map_cons, List.map_map, List.flatten_cons]
    simp only [Nat.add_zero]
    have hmap : (List.range (m + 1)).map
        ((fun j => [rateCatchSleep D hdr (k + j), D * 2 ^ (k + j)]) ∘ Nat.succ) =
        (List.range (m + 1)).map
        (fun j => [rateCatchSleep D hdr (k + 1 + j), D * 2 ^ (k + 1 + j)]) := by
      apply List.map_congr_left
      intro i _
      simp only [Function.comp_apply, Nat.succ_eq_add_one]
      have h3 : k + (i + 1) = k + 1 + i := by omega
      rw [h3]
    rw [hmap, ← hih]
    simp only [List.cons_append, List.nil_append, List.append_nil]
    rfl

theorem runGet_all429 (N D : Nat) (status : Nat → Nat) (hdr : Nat → Option Nat)
    (h429 : ∀ j, status j = 429) :
    runGet N D status hdr =
      ⟨.error (.rateLimit (rateHintMs D hdr N)), N + 1,
        ((List.range N).map (fun j => [rateCatchSleep D hdr j, D * 2 ^ j])).flatten⟩ := by
  unfold runGet
  rw [runGetAux]
  simp only [h429 0, if_true]
  by_cases hN : 0 < N
  · rw [if_pos hN, runGetAux_all429 N N D status hdr 1 h429 (by omega) le_rfl (by omega)]
    refine congrArg (RunResult.mk _ _) ?_
    rw [List.nil_append]
    obtain ⟨m, hm⟩ : ∃ m, N = m + 1 := ⟨N - 1, by omega⟩
    subst hm
    have := pair429 m (m + 1) D hdr 0 (by omega)
    simpa using this
  · rw [if_neg hN]
    have : N = 0 := by omega
    subst this
    simp

theorem runGet_fatal4xx (N D : Nat) (status : Nat → Nat) (hdr : Nat → Option Nat)
    (s : Nat) (h4 : 400 ≤ s) (h5 : s < 500) (h429 : s ≠ 429) (h0 : status 0 = s) :
    runGet N D status hdr = ⟨.error (.api s), 1, []⟩ := by
  unfold runGet
  rw [runGetAux]
  simp only [h0, if_true]
  rw [if_neg h429, if_neg (by omega : ¬ (200 ≤ s ∧ s < 300)),
    if_neg (by omega : ¬ 500 ≤ s)]

/-! ### Claims C6 and C7 -/

/-- C6: bounded, classified retry. With `N` configured retries, a run
whose every response is HTTP 500 performs exactly `N + 1` fetches and
surfaces `APIError 500`; an all-429 run performs exactly `N + 1` fetches
and surfaces `RateLimitError` (with the last attempt's hint); any non-429
4xx on the first attempt ends the run after exactly one fetch with
`APIError` of that status; and the default bound is `3 + 1 = 4` total
attempts. -/
theorem claim_C6_retry_bound :
    (∀ (N D : Nat) (status : Nat → Nat) (hdr : Nat → Option Nat),
      (∀ j, status j = 500) →
      (runGet N D status hdr).attempts = N + 1 ∧
      (runGet N D status hdr).outcome = .error (.api 500)) ∧
    (∀ (N D : Nat) (status : Nat → Nat) (hdr : Nat → Option Nat),
      (∀ j, status j = 429) →
      (runGet N D status hdr).attempts = N + 1 ∧
      (runGet N D status hdr).outcome = .error (.rateLimit (rateHintMs D hdr N))) ∧
    (∀ (N D : Nat) (status : Nat → Nat) (hdr : Nat → Option Nat) (s : Nat),
      400 ≤ s → s < 500 → s ≠ 429 → status 0 = s →
      (runGet N D status hdr).attempts = 1 ∧
      (runGet N D status hdr).outcome = .error (.api s)) ∧
    defaultRetryAttempts + 1 = 4 := by
  refine ⟨?_, ?_, ?_, rfl⟩
  · intro N D status hdr h500
    rw [runGet_all500 N D status hdr h500]
    exact ⟨rfl, rfl⟩
  · intro N D status hdr h429
    rw [runGet_all429 N D status hdr h429]
    exact ⟨rfl, rfl⟩
  · intro N D status hdr s h4 h5 hne h0
    rw [runGet_fatal4xx N D status hdr s h4 h5 hne h0]
    exact ⟨rfl, rfl⟩

/-- Concrete instantiation of C6 at the defaults: four attempts on
persistent 500 and on persistent 429, one attempt on 400. -/
theorem claim_C6_retry_bound_witness :
    (runGet 3 1000 (fun _ => 500) (fun _ => none)).attempts = 4 ∧
    (runGet 3 1000 (fun _ => 500) (fun _ => none)).outcome = .error (.api 500) ∧
    (runGet 3 1000 (fun _ => 429) (fun _ => none)).attempts = 4 ∧
    (runGet 3 1000 (fun _ => 400) (fun _ => none)).attempts = 1 ∧
    (runGet 3 1000 (fun _ => 400) (fun _ => none)).outcome = .error (.api 400) := by
  refine ⟨?_, ?_, ?_, ?_, ?_⟩
  · exact (claim_C6_retry_bound.1 3 1000 (fun _ => 500) (fun _ => none) (fun j => rfl)).1
  · exact (claim_C6_retry_bound.1 3 1000 (fun _ => 500) (fun _ => none) (fun j => rfl)).2
  · exact (claim_C6_retry_bound.2.1 3 1000 (fun _ => 429) (fun _ => none) (fun j => rfl)).1
  · exact (claim_C6_retry_bound.2.2.1 3 1000 (fun _ => 400) (fun _ => none) 400
      (by omega) (by omega) (by omega) rfl).1
  · exact (claim_C6_retry_bound.2.2.1 3 1000 (fun _ => 400) (fun _ => none) 400
      (by omega) (by omega) (by omega) rfl).2

/-- C7 (amended): backoff sleep traces. On an all-5xx run the sleeps are
exactly the doubling backoff `retryDelay * 2^k` for retries
`k = 0, ..., N-1`. On an all-429 run, each retry `k` sleeps *twice*: the
`RateLimitError` catch sleeps the server hint in milliseconds (or the
`retryDelay * 2^k` fallback when absent or zero), and the next loop
iteration then additionally sleeps the exponential backoff
`retryDelay * 2^k` — the hint does not *replace* the backoff sleep, it
precedes it. -/
theorem claim_C7_backoff_policy :
    (∀ (N D : Nat) (status : Nat → Nat) (hdr : Nat → Option Nat),
      (∀ j, status j = 500) →
      (runGet N D status hdr).sleeps = (List.range N).map (fun k => D * 2 ^ k)) ∧
    (∀ (N D : Nat) (status : Nat → Nat) (hdr : Nat → Option Nat),
      (∀ j, status j = 429) →
      (runGet N D status hdr).sleeps =
        ((List.range N).map (fun k => [rateCatchSleep D hdr k, D * 2 ^ k])).flatten) := by
  constructor
  · intro N D status hdr h500
    rw [runGet_all500 N D status hdr h500]
  · intro N D status hdr h429
    rw [runGet_all429 N D status hdr h429]

/-- Counterexample to C7 as originally stated: with one retry, base delay
1000 and a 429 response carrying `Retry-After: 7`, the client does not
sleep just the 7000 ms hint — it sleeps 7000 ms in the catch *and* the
1000 ms exponential backoff before the next attempt. -/
theorem claim_C7_counterexample :
    (runGet 1 1000 (fun _ => 429) (fun _ => some 7)).sleeps = [7000, 1000] ∧
    (runGet 1 1000 (fun _ => 429) (fun _ => some 7)).sleeps ≠ [7000] := by
  exact ⟨rfl, by decide⟩

/-- Concrete instantiation of C7: two retries on persistent 500 with base
1000 sleep 1000 then 2000 ms; the all-429 hinted run sleeps hint and
backoff alternately. -/
theorem claim_C7_backoff_policy_witness :
    (runGet 2 1000 (fun _ => 500) (fun _ => none)).sleeps = [1000, 2000] ∧
    (runGet 2 1000 (fun _ => 429) (fun _ => some 7)).sleeps = [7000, 1000, 7000, 2000] := by
  constructor
  · have h := claim_C7_backoff_policy.1 2 1000 (fun _ => 500) (fun _ => none) (fun j => rfl)
    rw [h]
    rfl
  · have h := claim_C7_backoff_policy.2 2 1000 (fun _ => 429) (fun _ => some 7) (fun j => rfl)
    rw [h]
    rfl

/-! ### WebSocket subscriptions (`WebSocketClient`)

`this.subscriptions` is a JS `Set<string>` (insertion-ordered, modeled as
a duplicate-free list); `this.ws.readyState === OPEN` is a Bool. The
events of interest: `subscribe`/`unsubscribe` calls, the socket dropping
(`close`), the `open` handler firing (first connect or reconnect), and an
explicit `disconnect()` call. -/

/-- `Set.add`: append when absent (JS sets keep insertion order). -/
def setAdd (l : List String) (c : String) : List String :=
  if c ∈ l then l else l ++ [c]

/-- `Set.delete`. -/
def setErase (l : List String) (c : String) : List String := l.erase c

/-- Connection flag and subscription set of a `WebSocketClient`. -/
structure WSState where
  sockOpen : Bool
  subs : List String
deriving Repr, DecidableEq

/-- An observable event acting on the client. -/
inductive WSEvent where
  | subscribe (channel : String)
  | unsubscribe (channel : String)
  | wsClose
  | wsOpen
  | disconnect
deriving Repr, DecidableEq

/-- A frame sent over the socket. -/
inductive Frame where
  | sub (channel : String)
  | unsub (channel : String)
deriving Repr, DecidableEq

/-- One event step: `subscribe` sends a frame only when the socket is
open and always records the channel; `unsubscribe` likewise removes it;
a socket drop only flips the flag — the subscription set is untouched;
the `open` handler re-sends a subscribe frame for every recorded channel
(re-adding each, which leaves the set unchanged); `disconnect()` closes
the socket and clears the set. -/
def wsStep (s : WSState) : WSEvent → WSState × List Frame
  | .subscribe c =>
    if s.sockOpen then ({ s with subs := setAdd s.subs c }, [.sub c])
    else ({ s with subs := setAdd s.subs c }, [])
  | .unsubscribe c =>
    if s.sockOpen then ({ s with subs := setErase s.subs c }, [.unsub c])
    else ({ s with subs := setErase s.subs c }, [])
  | .wsClose => ({ s with sockOpen := false }, [])
  | .wsOpen => (⟨true, s.subs.foldl setAdd s.subs⟩, s.subs.map Frame.sub)
  | .disconnect => (⟨false, []⟩, [])

/-- Run a sequence of events, accumulating every frame sent. -/
def runWS (s : WSState) : List WSEvent → WSState × List Frame
  | [] => (s, [])
  | e :: es =>
    let r := wsStep s e
    let r2 := runWS r.1 es
    (r2.1, r.2 ++ r2.2)

theorem foldl_setAdd_of_mem : ∀ (l acc : List String), (∀ c ∈ l, c ∈ acc) →
    l.foldl setAdd acc = acc := by
  intro l
  induction l with
  | nil => intro acc _; rfl
  | cons c cs ih =>
    intro acc hmem
    rw [List.foldl_cons]
    have hc : setAdd acc c = acc := by
      unfold setAdd
      rw [if_pos (hmem c (by simp))]
    rw [hc]
    exact ih acc (fun x hx => hmem x (by simp [hx]))

/-! ### Claims C8 and C9 -/

/-- C8: subscription replay. A socket drop sends nothing and leaves the
subscription set intact; the `open` handler (after first connect or any
reconnect) sends subscribe frames for exactly the channels currently in
the set and leaves the set unchanged; only `disconnect()` clears the set;
`subscribe`/`unsubscribe` while the socket is not open mutate the set
without sending any frame; and in the concrete A/B scenario the frames
sent on reconnect are exactly `{A, B}` in insertion order. -/
theorem claim_C8_subscription_replay :
    (∀ s : WSState, (wsStep s .wsClose).1.subs = s.subs ∧ (wsStep s .wsClose).2 = []) ∧
    (∀ s : WSState, (wsStep s .wsOpen).1.subs = s.subs ∧
      (wsStep s .wsOpen).2 = s.subs.map Frame.sub) ∧
    (∀ s : WSState, (wsStep s .disconnect).1.subs = []) ∧
    (∀ (s : WSState) (c : String), s.sockOpen = false →
      (wsStep s (.subscribe c)).2 = [] ∧
      (wsStep s (.subscribe c)).1.subs = setAdd s.subs c ∧
      (wsStep s (.unsubscribe c)).2 = [] ∧
      (wsStep s (.unsubscribe c)).1.subs = setErase s.subs c) ∧
    (runWS ⟨false, []⟩ [.subscribe "A", .subscribe "B", .wsOpen]).2 =
      [Frame.sub "A", Frame.sub "B"] ∧
    (runWS ⟨true, ["A", "B"]⟩ [.wsClose, .wsOpen]).2 =
      [Frame.sub "A", Frame.sub "B"] := by
  refine ⟨?_, ?_, fun s => rfl, ?_, by decide, by decide⟩
  · intro s
    exact ⟨rfl, rfl⟩
  · intro s
    constructor
    · show (s.subs.foldl setAdd s.subs) = s.subs
      exact foldl_setAdd_of_mem s.subs s.subs (fun c hc => hc)
    · rfl
  · intro s c h
    unfold wsStep
    rw [h]
    exact ⟨rfl, rfl, rfl, rfl⟩

/-- Concrete instantiation of C8: offline mutations on the state
`⟨closed, ["X"]⟩`. -/
theorem claim_C8_subscription_replay_witness :
    (wsStep ⟨false, ["X"]⟩ (.subscribe "Y")).2 = [] ∧
    (wsStep ⟨false, ["X"]⟩ (.subscribe "Y")).1.subs = setAdd ["X"] "Y" ∧
    (wsStep ⟨false, ["X"]⟩ (.unsubscribe "Y")).2 = [] ∧
    (wsStep ⟨false, ["X"]⟩ (.unsubscribe "Y")).1.subs = setErase ["X"] "Y" :=
  claim_C8_subscription_replay.2.2.2.1 ⟨false, ["X"]⟩ "Y" rfl

/-- One `emit`: every registered handler is invoked, in order, with the
same data; a handler's result (`.ok` or a caught `.error`) is recorded
and never short-circuits the remaining handlers (the source wraps each
call in `try/catch` and only logs). -/
def emitRun {α ε : Type} (handlers : List (α → Except ε Unit)) (data : α) :
    List (Except ε Unit) :=
  match handlers with
  | [] => []
  | h :: rest => h data :: emitRun rest data

/-- Dispatch of a sequence of inbound frames: each frame is emitted to
the same handler list; a throwing handler on one frame does not stop
later frames. -/
def dispatchFrames {α ε : Type} (handlers : List (α → Except ε Unit))
    (frames : List α) : List (List (Except ε Unit)) :=
  frames.map (emitRun handlers)

theorem emitRun_append {α ε : Type} (l1 l2 : List (α → Except ε Unit)) (d : α) :
    emitRun (l1 ++ l2) d = emitRun l1 d ++ emitRun l2 d := by
  induction l1 with
  | nil => rfl
  | cons h rest ih =>
    rw [List.cons_append, emitRun, emitRun, ih]
    rfl

/-- C9: handler isolation. If some handler throws (`.error e`), every
handler registered before and after it is still invoked with the same
data — the invocation list is exactly one entry per handler, with the
failing handler contributing its caught error — and dispatch of
subsequent frames continues: every frame in the queue is emitted to the
full handler list. -/
theorem claim_C9_handler_isolation :
    ∀ (α ε : Type) (pre post : List (α → Except ε Unit))
      (h : α → Except ε Unit) (e : ε) (d : α),
      h d = .error e →
      emitRun (pre ++ h :: post) d =
        emitRun pre d ++ .error e :: emitRun post d ∧
      (emitRun (pre ++ h :: post) d).length = pre.length + 1 + post.length ∧
      ∀ frames : List α,
        dispatchFrames (pre ++ h :: post) frames =
          frames.map (emitRun (pre ++ h :: post)) ∧
        (dispatchFrames (pre ++ h :: post) frames).length = frames.length := by
  intro α ε pre post h e d hd
  have hsplit : emitRun (pre ++ h :: post) d =
      emitRun pre d ++ .error e :: emitRun post d := by
    rw [emitRun_append, emitRun, hd]
  refine ⟨hsplit, ?_, ?_⟩
  · rw [hsplit]
    have hlen : ∀ (l : List (α → Except ε Unit)), (emitRun l d).length = l.length := by
      intro l
      induction l with
      | nil => rfl
      | cons g rest ih => rw [emitRun, List.length_cons, List.length_cons, ih]
    rw [List.length_append, List.length_cons, hlen, hlen]
    omega
  · intro frames
    exact ⟨rfl, by rw [dispatchFrames, List.length_map]⟩

/-- Concrete instantiation of C9: three handlers, the middle one throws;
all three invocations happen, two frames are both dispatched. -/
theorem claim_C9_handler_isolation_witness :
    emitRun ([fun _ => .ok ()] ++ (fun _ => .error "boom") :: [fun _ => .ok ()]) (0 : Nat) =
      emitRun [fun _ => .ok ()] 0 ++ .error "boom" :: emitRun [fun _ => .ok ()] 0 ∧
    (emitRun ([fun _ => .ok ()] ++ (fun _ => .error "boom") :: [fun _ => .ok ()])
      (0 : Nat)).length = 1 + 1 + 1 ∧
    ∀ frames : List Nat,
      dispatchFrames ([fun _ => .ok ()] ++ (fun _ => .error "boom") :: [fun _ => .ok ()])
          frames =
        frames.map (emitRun ([fun _ => .ok ()] ++ (fun _ => .error "boom") ::
          [fun _ => .ok ()])) ∧
      (dispatchFrames ([fun _ => .ok ()] ++ (fun _ => .error "boom") ::
        [fun _ => .ok ()]) frames).length = frames.length :=
  claim_C9_handler_isolation Nat String [fun _ => .ok ()] [fun _ => .ok ()]
    (fun _ => .error "boom") "boom" 0 rfl

end Pacifica
